import Mathlib

/-!
# mcp-tidy: a verification development

A shallow embedding, in Lean, of the core of the mcp-tidy repository
(github.com/nnnkkk7/mcp-tidy): the config store (package config: Load,
Backup, RemoveServer, RemoveServers, atomicWrite), the transcript parser
and aggregator (package transcript: ExtractServerName, ParseLine,
ParseFile, AggregateStats, FilterByPeriod) and the shared data model
(package types), together with theorems settling the specification's
claims about them.

Modelling conventions:
- Go strings are Lean `String`s (the names involved are ASCII, so byte
  indices and character indices agree).
- `time.Time` instants are `Nat` on an abstract time line; `0` is the
  zero ("unset") timestamp, `t.After u` is `t > u`.
- JSON documents are values of the inductive `Json`; `encoding/json`'s
  text-level parser is embedded as the fuel-based `jsonParse`, its
  generic decoding into `map[string]interface{}` as `goNormalize`
  (Go maps are unordered and `json.Marshal` emits their keys sorted),
  and `json.MarshalIndent(v, "", "  ")` as `marshalIndent`.
- The file system seen by the config writer is an association list from
  path to content; `os.ReadFile`/`os.WriteFile` and the atomic
  write-then-rename both become point updates of that list.
-/

/-- JSON value, as the generic document tree that encoding/json works on.
Object fields keep their textual order and may repeat a name, so that a
parsed value is a faithful image of the document; number values keep
their source lexeme. -/
inductive Json where
  | null : Json
  | bool : Bool → Json
  | num : String → Json
  | str : String → Json
  | arr : List Json → Json
  | obj : List (String × Json) → Json
deriving Inhabited

mutual

/-- Boolean structural equality on document trees; the deriving handler
cannot produce DecidableEq for this nested inductive, so it is built from
this test below. -/
def jsonEq : Json → Json → Bool
  | Json.obj fs, Json.obj gs => jsonEqFields fs gs
  | Json.arr xs, Json.arr ys => jsonEqList xs ys
  | Json.str a, Json.str b => a == b
  | Json.num a, Json.num b => a == b
  | Json.bool a, Json.bool b => a == b
  | Json.null, Json.null => true
  | _, _ => false

/-- jsonEq on the element lists of two arrays. -/
def jsonEqList : List Json → List Json → Bool
  | [], [] => true
  | x :: xs, y :: ys => jsonEq x y && jsonEqList xs ys
  | _, _ => false

/-- jsonEq on the field lists of two objects. -/
def jsonEqFields : List (String × Json) → List (String × Json) → Bool
  | [], [] => true
  | f :: fs, g :: gs => f.1 == g.1 && jsonEq f.2 g.2 && jsonEqFields fs gs
  | _, _ => false

end

mutual

theorem jsonEq_iff : ∀ a b : Json, jsonEq a b = true ↔ a = b
  | a, b => by
    cases a with
    | null => cases b <;> simp [jsonEq]
    | bool x => cases b <;> simp [jsonEq]
    | num s => cases b <;> simp [jsonEq]
    | str s => cases b <;> simp [jsonEq]
    | arr xs =>
      cases b with
      | arr ys => simpa [jsonEq] using jsonEqList_iff xs ys
      | null => simp [jsonEq]
      | bool y => simp [jsonEq]
      | num t => simp [jsonEq]
      | str t => simp [jsonEq]
      | obj gs => simp [jsonEq]
    | obj fs =>
      cases b with
      | obj gs => simpa [jsonEq] using jsonEqFields_iff fs gs
      | null => simp [jsonEq]
      | bool y => simp [jsonEq]
      | num t => simp [jsonEq]
      | str t => simp [jsonEq]
      | arr ys => simp [jsonEq]

theorem jsonEqList_iff : ∀ xs ys : List Json, jsonEqList xs ys = true ↔ xs = ys
  | xs, ys => by
    cases xs with
    | nil => cases ys <;> simp [jsonEqList]
    | cons x xs =>
      cases ys with
      | nil => simp [jsonEqList]
      | cons y ys => simp [jsonEqList, jsonEq_iff x y, jsonEqList_iff xs ys]

theorem jsonEqFields_iff :
    ∀ fs gs : List (String × Json), jsonEqFields fs gs = true ↔ fs = gs
  | fs, gs => by
    cases fs with
    | nil => cases gs <;> simp [jsonEqFields]
    | cons f fs =>
      cases gs with
      | nil => simp [jsonEqFields]
      | cons g gs =>
        obtain ⟨k, v⟩ := f
        obtain ⟨l, w⟩ := g
        simp [jsonEqFields, jsonEq_iff v w, jsonEqFields_iff fs gs, and_assoc]

end

instance : DecidableEq Json := fun a b =>
  decidable_of_iff (jsonEq a b = true) (jsonEq_iff a b)

/-! ## Text-level JSON: parser and serializer

jsonParse embeds the acceptance behaviour of encoding/json's scanner
(strict RFC 8259 grammar, whole-input single value); marshalIndent embeds
json.MarshalIndent(v, "", "  ") including Go's default escaping of
HTML-significant characters.
-/

/-- JSON whitespace, as accepted by encoding/json's scanner. -/
def isJsonWs (c : Char) : Bool :=
  c = ' ' || c = '\t' || c = '\n' || c = '\r'

/-- Drop leading JSON whitespace. -/
def skipWs : List Char → List Char
  | [] => []
  | c :: cs => if isJsonWs c then skipWs cs else c :: cs

/-- Value of a hexadecimal digit character. -/
def hexVal (c : Char) : Option Nat :=
  if 48 ≤ c.toNat ∧ c.toNat ≤ 57 then some (c.toNat - 48)
  else if 97 ≤ c.toNat ∧ c.toNat ≤ 102 then some (c.toNat - 87)
  else if 65 ≤ c.toNat ∧ c.toNat ≤ 70 then some (c.toNat - 55)
  else none

/-- Character with the given code point; invalid code points become the
replacement character U+FFFD, as in Go's unquoting. -/
def charOfCode (n : Nat) : Char :=
  if n < 0xD800 ∨ (0xDFFF < n ∧ n < 0x110000) then Char.ofNat n
  else Char.ofNat 0xFFFD

/-- Body of a JSON string literal after the opening quote: decodes escapes
up to the closing quote and returns the decoded characters and the rest of
the input. Mirrors encoding/json's unquoting, including the treatment of
lone \u surrogate halves as U+FFFD. The fuel only bounds recursion depth;
one unit per consumed character is always enough. -/
def parseStringChars : Nat → List Char → Option (List Char × List Char)
  | 0, _ => none
  | _, [] => none
  | _ + 1, '"' :: rest => some ([], rest)
  | fuel + 1, '\\' :: rest =>
    match rest with
    | '"' :: r => (parseStringChars fuel r).map (fun p => ('"' :: p.1, p.2))
    | '\\' :: r => (parseStringChars fuel r).map (fun p => ('\\' :: p.1, p.2))
    | '/' :: r => (parseStringChars fuel r).map (fun p => ('/' :: p.1, p.2))
    | 'b' :: r => (parseStringChars fuel r).map (fun p => (charOfCode 8 :: p.1, p.2))
    | 'f' :: r => (parseStringChars fuel r).map (fun p => (charOfCode 12 :: p.1, p.2))
    | 'n' :: r => (parseStringChars fuel r).map (fun p => ('\n' :: p.1, p.2))
    | 'r' :: r => (parseStringChars fuel r).map (fun p => ('\r' :: p.1, p.2))
    | 't' :: r => (parseStringChars fuel r).map (fun p => ('\t' :: p.1, p.2))
    | 'u' :: h1 :: h2 :: h3 :: h4 :: r =>
      match hexVal h1, hexVal h2, hexVal h3, hexVal h4 with
      | some a, some b, some c, some d =>
        let code := ((a * 16 + b) * 16 + c) * 16 + d
        if 0xD800 ≤ code ∧ code ≤ 0xDBFF then
          match r with
          | '\\' :: 'u' :: g1 :: g2 :: g3 :: g4 :: r2 =>
            match hexVal g1, hexVal g2, hexVal g3, hexVal g4 with
            | some e1, some e2, some e3, some e4 =>
              let lo := ((e1 * 16 + e2) * 16 + e3) * 16 + e4
              if 0xDC00 ≤ lo ∧ lo ≤ 0xDFFF then
                (parseStringChars fuel r2).map (fun p =>
                  (charOfCode (0x10000 + (code - 0xD800) * 1024 + (lo - 0xDC00)) :: p.1, p.2))
              else
                (parseStringChars fuel r).map (fun p => (charOfCode 0xFFFD :: p.1, p.2))
            | _, _, _, _ =>
              (parseStringChars fuel r).map (fun p => (charOfCode 0xFFFD :: p.1, p.2))
          | _ => (parseStringChars fuel r).map (fun p => (charOfCode 0xFFFD :: p.1, p.2))
        else if 0xDC00 ≤ code ∧ code ≤ 0xDFFF then
          (parseStringChars fuel r).map (fun p => (charOfCode 0xFFFD :: p.1, p.2))
        else
          (parseStringChars fuel r).map (fun p => (charOfCode code :: p.1, p.2))
      | _, _, _, _ => none
    | _ => none
  | fuel + 1, c :: rest =>
    if c.toNat < 32 then none
    else (parseStringChars fuel rest).map (fun p => (c :: p.1, p.2))

/-- Longest leading run of decimal digits. -/
def spanDigits : List Char → List Char × List Char
  | [] => ([], [])
  | c :: cs =>
    if c.isDigit then
      let p := spanDigits cs
      (c :: p.1, p.2)
    else ([], c :: cs)

/-- Optional exponent part of a JSON number. -/
def parseExpPart (cs : List Char) : Option (List Char × List Char) :=
  match cs with
  | c :: r =>
    if c = 'e' ∨ c = 'E' then
      let sr : List Char × List Char :=
        match r with
        | s :: r2 => if s = '+' ∨ s = '-' then ([s], r2) else ([], r)
        | [] => ([], [])
      let p := spanDigits sr.2
      if p.1.isEmpty then none else some (c :: sr.1 ++ p.1, p.2)
    else some ([], cs)
  | [] => some ([], [])

/-- Optional fraction part of a JSON number, followed by the optional
exponent part. -/
def parseFracExp (cs : List Char) : Option (List Char × List Char) :=
  match cs with
  | '.' :: r =>
    let p := spanDigits r
    if p.1.isEmpty then none
    else
      match parseExpPart p.2 with
      | some q => some ('.' :: p.1 ++ q.1, q.2)
      | none => none
  | _ => parseExpPart cs

/-- Integer part of a JSON number: a single 0, or a nonzero digit followed
by more digits. -/
def parseIntPart : List Char → Option (List Char × List Char)
  | '0' :: r => some (['0'], r)
  | c :: r =>
    if c.isDigit then
      let p := spanDigits r
      some (c :: p.1, p.2)
    else none
  | [] => none

/-- Full JSON number lexeme: optional minus sign, integer part, optional
fraction and exponent. -/
def parseNumber (cs : List Char) : Option (List Char × List Char) :=
  match cs with
  | '-' :: r =>
    match parseIntPart r with
    | some p =>
      match parseFracExp p.2 with
      | some q => some ('-' :: p.1 ++ q.1, q.2)
      | none => none
    | none => none
  | _ =>
    match parseIntPart cs with
    | some p =>
      match parseFracExp p.2 with
      | some q => some (p.1 ++ q.1, q.2)
      | none => none
    | none => none

mutual

/-- Parse one JSON value; the fuel bounds recursion depth and jsonParse
supplies more of it than the input could ever need. -/
def parseValue : Nat → List Char → Option (Json × List Char)
  | 0, _ => none
  | fuel + 1, input =>
    match skipWs input with
    | [] => none
    | 'n' :: 'u' :: 'l' :: 'l' :: rest => some (Json.null, rest)
    | 't' :: 'r' :: 'u' :: 'e' :: rest => some (Json.bool true, rest)
    | 'f' :: 'a' :: 'l' :: 's' :: 'e' :: rest => some (Json.bool false, rest)
    | '"' :: rest =>
      (parseStringChars (rest.length + 1) rest).map (fun p => (Json.str ⟨p.1⟩, p.2))
    | '[' :: rest =>
      match skipWs rest with
      | ']' :: r => some (Json.arr [], r)
      | other => (parseElems fuel other).map (fun p => (Json.arr p.1, p.2))
    | '{' :: rest =>
      match skipWs rest with
      | '}' :: r => some (Json.obj [], r)
      | other => (parseFields fuel other).map (fun p => (Json.obj p.1, p.2))
    | other =>
      match other with
      | c :: _ =>
        if c = '-' ∨ c.isDigit then
          (parseNumber other).map (fun p => (Json.num ⟨p.1⟩, p.2))
        else none
      | [] => none

/-- Parse the elements of a nonempty JSON array, up to the closing
bracket. -/
def parseElems : Nat → List Char → Option (List Json × List Char)
  | 0, _ => none
  | fuel + 1, input =>
    match parseValue fuel input with
    | none => none
    | some (v, rest) =>
      match skipWs rest with
      | ',' :: r => (parseElems fuel r).map (fun p => (v :: p.1, p.2))
      | ']' :: r => some ([v], r)
      | _ => none

/-- Parse the fields of a nonempty JSON object, up to the closing
brace. -/
def parseFields : Nat → List Char → Option (List (String × Json) × List Char)
  | 0, _ => none
  | fuel + 1, input =>
    match skipWs input with
    | '"' :: rest =>
      match parseStringChars (rest.length + 1) rest with
      | none => none
      | some (key, rest2) =>
        match skipWs rest2 with
        | ':' :: rest3 =>
          match parseValue fuel rest3 with
          | none => none
          | some (v, rest4) =>
            match skipWs rest4 with
            | ',' :: r => (parseFields fuel r).map (fun p => ((⟨key⟩, v) :: p.1, p.2))
            | '}' :: r => some ([(⟨key⟩, v)], r)
            | _ => none
        | _ => none
    | _ => none

end

/-- Parse a whole document: one JSON value with nothing but whitespace
after it, as json.Unmarshal requires. -/
def jsonParse (s : String) : Option Json :=
  match parseValue (2 * s.data.length + 4) s.data with
  | some (v, rest) => if skipWs rest = [] then some v else none
  | none => none

/-- Two spaces of indentation per level, as in
json.MarshalIndent(v, "", "  "). -/
def padChars (n : Nat) : List Char := List.replicate (2 * n) ' '

/-- Lower-case hexadecimal digit. -/
def hexDigit (n : Nat) : Char :=
  if n < 10 then charOfCode (48 + n) else charOfCode (87 + n)

/-- Six-character \u00xx escape. -/
def uEsc (n : Nat) : List Char :=
  '\\' :: 'u' :: hexDigit (n / 4096 % 16) :: hexDigit (n / 256 % 16) ::
    hexDigit (n / 16 % 16) :: [hexDigit (n % 16)]

/-- Escaping of one character inside a marshalled JSON string, per
encoding/json's default encoder (which also escapes the HTML-significant
characters and the line separators U+2028/U+2029). -/
def escapeChar (c : Char) : List Char :=
  if c = '"' then ['\\', '"']
  else if c = '\\' then ['\\', '\\']
  else if c = '\n' then ['\\', 'n']
  else if c = '\r' then ['\\', 'r']
  else if c = '\t' then ['\\', 't']
  else if c = '<' ∨ c = '>' ∨ c = '&' then uEsc c.toNat
  else if c.toNat < 32 then uEsc c.toNat
  else if c.toNat = 0x2028 ∨ c.toNat = 0x2029 then uEsc c.toNat
  else [c]

/-- Marshalled form of a string value, quotes included. -/
def quoteString (s : String) : List Char :=
  '"' :: s.data.foldr (fun c acc => escapeChar c ++ acc) ['"']

mutual

/-- Render one JSON value at the given indentation level, exactly as
json.MarshalIndent(v, "", "  ") lays it out. -/
def renderJson : Nat → Json → List Char
  | _, Json.null => ['n', 'u', 'l', 'l']
  | _, Json.bool true => ['t', 'r', 'u', 'e']
  | _, Json.bool false => ['f', 'a', 'l', 's', 'e']
  | _, Json.num s => s.data
  | _, Json.str s => quoteString s
  | _, Json.arr [] => ['[', ']']
  | ind, Json.arr (x :: xs) =>
    '[' :: '\n' :: (padChars (ind + 1) ++ renderJson (ind + 1) x ++
      renderMore (ind + 1) xs ++ '\n' :: (padChars ind ++ [']']))
  | _, Json.obj [] => ['{', '}']
  | ind, Json.obj (f :: fs) =>
    '{' :: '\n' :: (renderField (ind + 1) f ++ renderFields (ind + 1) fs ++
      '\n' :: (padChars ind ++ ['}']))

/-- Render the remaining elements of an array, each preceded by a comma
and a line break. -/
def renderMore : Nat → List Json → List Char
  | _, [] => []
  | ind, x :: xs =>
    ',' :: '\n' :: (padChars ind ++ renderJson ind x ++ renderMore ind xs)

/-- Render one object field: indented quoted key, colon, space, value. -/
def renderField : Nat → String × Json → List Char
  | ind, (k, v) => padChars ind ++ quoteString k ++ ':' :: ' ' :: renderJson ind v

/-- Render the remaining fields of an object. -/
def renderFields : Nat → List (String × Json) → List Char
  | _, [] => []
  | ind, f :: fs => ',' :: '\n' :: (renderField ind f ++ renderFields ind fs)

end

/-- json.MarshalIndent(v, "", "  "): the document written back out by the
config writer. -/
def marshalIndent (v : Json) : String := ⟨renderJson 0 v⟩

/-! ## Go's generic document view

Unmarshalling into map[string]interface{} collapses repeated keys (the
last occurrence wins) and forgets field order; marshalling a Go map emits
its keys in sorted (byte-lexicographic) order. goNormalize composes the
two: it is the document tree as it survives a generic
parse-then-marshal round trip.
-/

/-- Byte-lexicographic comparison on strings (sort.Strings order; for
UTF-8, code-point order and byte order agree). -/
def strLeChars : List Char → List Char → Bool
  | [], _ => true
  | _ :: _, [] => false
  | a :: as, b :: bs => if a = b then strLeChars as bs else decide (a.toNat < b.toNat)

/-- String order used when Go marshals map keys. -/
def strLe (a b : String) : Bool := strLeChars a.data b.data

/-- Store a key in an association list: replace the first binding of that
key, or append a fresh one. This is assignment to a Go map (and, for the
file-system model below, writing a file). -/
def setAssoc {α : Type} : List (String × α) → String → α → List (String × α)
  | [], k, v => [(k, v)]
  | (k1, v1) :: rest, k, v =>
    if k1 = k then (k, v) :: rest else (k1, v1) :: setAssoc rest k v

/-- First binding of a key in an association list. -/
def getAssoc {α : Type} : List (String × α) → String → Option α
  | [], _ => none
  | (k1, v1) :: rest, k => if k1 = k then some v1 else getAssoc rest k

/-- Remove the binding of a key from an association list: delete on a Go
map. -/
def delAssoc {α : Type} : List (String × α) → String → List (String × α)
  | [], _ => []
  | (k1, v1) :: rest, k => if k1 = k then delAssoc rest k else (k1, v1) :: delAssoc rest k

/-- Last binding of a key: what json.Unmarshal leaves in a Go map when a
document repeats the key. -/
def lastAssoc {α : Type} : List (String × α) → String → Option α
  | [], _ => none
  | (k1, v1) :: rest, k =>
    match lastAssoc rest k with
    | some w => some w
    | none => if k1 = k then some v1 else none

/-- Collapse repeated keys, last occurrence winning. -/
def dedupFields (l : List (String × Json)) : List (String × Json) :=
  l.foldl (fun acc kv => setAssoc acc kv.1 kv.2) []

/-- Insert a field into a key-sorted list of fields. -/
def insertField (f : String × Json) : List (String × Json) → List (String × Json)
  | [] => [f]
  | g :: gs => if strLe f.1 g.1 then f :: g :: gs else g :: insertField f gs

/-- Sort fields by key, as Go marshals map keys. -/
def sortFields (l : List (String × Json)) : List (String × Json) :=
  l.foldr insertField []

mutual

/-- The document tree as Go's generic map[string]interface{} view
re-marshals it: every object deduplicated (last key wins) and key-sorted,
recursively. -/
def goNormalize : Json → Json
  | Json.null => Json.null
  | Json.bool b => Json.bool b
  | Json.num s => Json.num s
  | Json.str s => Json.str s
  | Json.arr xs => Json.arr (goNormalizeList xs)
  | Json.obj fields => Json.obj (sortFields (dedupFields (goNormalizeFields fields)))

/-- goNormalize over the elements of an array. -/
def goNormalizeList : List Json → List Json
  | [] => []
  | x :: xs => goNormalize x :: goNormalizeList xs

/-- goNormalize over the values of an object's fields. -/
def goNormalizeFields : List (String × Json) → List (String × Json)
  | [] => []
  | (k, v) :: fs => (k, goNormalize v) :: goNormalizeFields fs

end

/-! ## Package types: the shared data model -/

/-- Scope of an MCP server configuration (types.Scope). -/
inductive Scope where
  | global : Scope
  | project : Scope
deriving DecidableEq, Inhabited

/-- Connection type of an MCP server (types.ServerType). -/
inductive ServerType where
  | stdio : ServerType
  | http : ServerType
deriving DecidableEq, Inhabited

/-- types.MCPServer: one configured integration. The Go field Type is
called srvType here because type is a Lean keyword. -/
structure MCPServer where
  name : String
  srvType : ServerType
  typeStr : String
  command : String
  args : List String
  env : List (String × String)
  url : String
  headers : List (String × String)
  scope : Scope
  projectPath : String
deriving DecidableEq, Inhabited

/-- types.ServerStats: usage aggregate for one server name. Timestamps
are Nat instants with 0 the zero-value ("unset") time. -/
structure ServerStats where
  name : String
  calls : Nat
  lastUsed : Nat
  tools : List (String × Nat)
deriving DecidableEq, Inhabited

/-- types.ToolCall: one observed invocation extracted from a log line. -/
structure ToolCall where
  serverName : String
  toolName : String
  timestamp : Nat
deriving DecidableEq, Inhabited

/-- types.Period: the named lookback windows. -/
inductive Period where
  | d7 : Period
  | d30 : Period
  | d90 : Period
  | all : Period
deriving DecidableEq, Inhabited

/-- Period.Duration, in seconds of the abstract time line (Go returns
nanoseconds; only ratios to the time line matter). PeriodAll maps to 0 as
a special no-filtering marker. -/
def Period.duration : Period → Nat
  | Period.d7 => 7 * 24 * 3600
  | Period.d30 => 30 * 24 * 3600
  | Period.d90 => 90 * 24 * 3600
  | Period.all => 0

/-! ## Package config: Load and the typed store -/

/-- config.rawServerConfig. The Go field Type is typ here. -/
structure RawServerConfig where
  typ : String
  command : String
  args : List String
  env : List (String × String)
  url : String
  headers : List (String × String)
deriving DecidableEq

instance : Inhabited RawServerConfig :=
  ⟨{ typ := ⟨[]⟩, command := ⟨[]⟩, args := [], env := [], url := ⟨[]⟩, headers := [] }⟩

/-- config.rawProjectConfig. -/
structure RawProjectConfig where
  mcpServers : List (String × RawServerConfig)
deriving DecidableEq, Inhabited

/-- config.rawConfig. -/
structure RawConfig where
  mcpServers : List (String × RawServerConfig)
  projects : List (String × RawProjectConfig)
deriving DecidableEq, Inhabited

/-- Unmarshal a JSON value into a Go string: strings decode, null leaves
the zero value, anything else is a type error. -/
def decodeGoString (cur : String) : Json → Option String
  | Json.str s => some s
  | Json.null => some cur
  | _ => none

/-- Unmarshal a JSON value into a Go []string. -/
def decodeStrList : Json → Option (List String)
  | Json.arr xs =>
    xs.foldr
      (fun x acc =>
        match acc with
        | none => none
        | some rest =>
          match x with
          | Json.str s => some (s :: rest)
          | Json.null => some (⟨[]⟩ :: rest)
          | _ => none)
      (some [])
  | _ => none

/-- Unmarshal a JSON value into a Go map[string]string (later duplicate
keys win). -/
def decodeStrMap : Json → Option (List (String × String))
  | Json.obj fields =>
    fields.foldl
      (fun acc kv =>
        match acc with
        | none => none
        | some m =>
          match kv.2 with
          | Json.str s => some (setAssoc m kv.1 s)
          | Json.null => some (setAssoc m kv.1 ⟨[]⟩)
          | _ => none)
      (some [])
  | _ => none

/-- Decode one field of rawServerConfig; unknown fields are ignored, as
encoding/json does. -/
def decodeServerField (acc : RawServerConfig) (k : String) (v : Json) :
    Option RawServerConfig :=
  if k = (r"type") then (decodeGoString acc.typ v).map (fun s => { acc with typ := s })
  else if k = (r"command") then
    (decodeGoString acc.command v).map (fun s => { acc with command := s })
  else if k = (r"args") then
    match v with
    | Json.null => some acc
    | _ => (decodeStrList v).map (fun l => { acc with args := l })
  else if k = (r"env") then
    match v with
    | Json.null => some acc
    | _ => (decodeStrMap v).map (fun m => { acc with env := m })
  else if k = (r"url") then (decodeGoString acc.url v).map (fun s => { acc with url := s })
  else if k = (r"headers") then
    match v with
    | Json.null => some acc
    | _ => (decodeStrMap v).map (fun m => { acc with headers := m })
  else some acc

/-- Unmarshal a JSON value into rawServerConfig. -/
def decodeRawServerConfig : Json → Option RawServerConfig
  | Json.null => some default
  | Json.obj fields =>
    fields.foldl
      (fun acc kv =>
        match acc with
        | none => none
        | some a => decodeServerField a kv.1 kv.2)
      (some default)
  | _ => none

/-- Unmarshal a JSON value into map[string]rawServerConfig. -/
def decodeServerMap : Json → Option (List (String × RawServerConfig))
  | Json.obj fields =>
    fields.foldl
      (fun acc kv =>
        match acc with
        | none => none
        | some m => (decodeRawServerConfig kv.2).map (fun c => setAssoc m kv.1 c))
      (some [])
  | _ => none

/-- Unmarshal a JSON value into rawProjectConfig. -/
def decodeRawProjectConfig : Json → Option RawProjectConfig
  | Json.null => some default
  | Json.obj fields =>
    fields.foldl
      (fun acc kv =>
        match acc with
        | none => none
        | some a =>
          if kv.1 = (r"mcpServers") then
            match kv.2 with
            | Json.null => some a
            | _ => (decodeServerMap kv.2).map (fun m => { a with mcpServers := m })
          else some a)
      (some default)
  | _ => none

/-- Unmarshal a JSON value into map[string]rawProjectConfig. -/
def decodeProjectMap : Json → Option (List (String × RawProjectConfig))
  | Json.obj fields =>
    fields.foldl
      (fun acc kv =>
        match acc with
        | none => none
        | some m => (decodeRawProjectConfig kv.2).map (fun c => setAssoc m kv.1 c))
      (some [])
  | _ => none

/-- Unmarshal a JSON document into rawConfig (the typed view Load
builds). -/
def decodeRawConfig : Json → Option RawConfig
  | Json.null => some default
  | Json.obj fields =>
    fields.foldl
      (fun acc kv =>
        match acc with
        | none => none
        | some a =>
          if kv.1 = (r"mcpServers") then
            match kv.2 with
            | Json.null => some a
            | _ => (decodeServerMap kv.2).map (fun m => { a with mcpServers := m })
          else if kv.1 = (r"projects") then
            match kv.2 with
            | Json.null => some a
            | _ => (decodeProjectMap kv.2).map (fun m => { a with projects := m })
          else some a)
      (some default)
  | _ => none

/-- Config.parseServer: one raw entry to a typed MCPServer. Any type
string other than the literal http means stdio. -/
def parseServer (name : String) (raw : RawServerConfig) (scope : Scope)
    (projectPath : String) : MCPServer :=
  { name := name
    srvType := if raw.typ = (r"http") then ServerType.http else ServerType.stdio
    typeStr := raw.typ
    command := raw.command
    args := raw.args
    env := raw.env
    url := raw.url
    headers := raw.headers
    scope := scope
    projectPath := projectPath }

/-- Config: the parsed store. -/
structure Config where
  path : String
  servers : List MCPServer
  serverMap : List (String × MCPServer)
  rawContent : Option String
deriving DecidableEq, Inhabited

/-- Config.parseServers: flatten global servers and every project's
servers into the ordered collection and the by-name lookup map. -/
def parseServers (raw : RawConfig) : List MCPServer × List (String × MCPServer) :=
  let globals := raw.mcpServers.map (fun kv => parseServer kv.1 kv.2 Scope.global ⟨[]⟩)
  let projectServers :=
    raw.projects.flatMap (fun pkv =>
      pkv.2.mcpServers.map (fun kv => parseServer kv.1 kv.2 Scope.project pkv.1))
  let all := globals ++ projectServers
  (all, all.foldl (fun m s => setAssoc m s.name s) [])

/-- config.Load. The file system is abstracted to the optional content of
the file at the path: none models a file that does not exist (os.ReadFile
returning ErrNotExist). -/
def load (path : String) (file : Option String) : Except String Config :=
  match file with
  | none => Except.ok { path := path, servers := [], serverMap := [], rawContent := none }
  | some data =>
    match jsonParse data with
    | none => Except.error (r"failed to parse config json")
    | some j =>
      match decodeRawConfig j with
      | none => Except.error (r"failed to parse config json")
      | some raw =>
        Except.ok
          { path := path
            servers := (parseServers raw).1
            serverMap := (parseServers raw).2
            rawContent := some data }

/-! ## Package config: Backup, RemoveServer, RemoveServers

The document side of removal is split out as removeFromFields /
removeServerDoc (the transformation the code applies between
json.Unmarshal into map[string]interface{} and json.MarshalIndent), so
that the claims about preservation can be stated on the document tree.
The file system is an association list from path to content; atomicWrite
becomes a point update (its temp-file mechanics have no observable
content-level effect on success).
-/

/-- The in-memory removal RemoveServer performs on the generic document
view (delete server.Name from the mcpServers map selected by scope, each
step guarded by the same type assertions as the code, which silently
no-op when they fail). The fields list is the goNormalize image of the
parsed document, i.e. Go's map view of it. -/
def removeFromFields (fields : List (String × Json)) (server : MCPServer) :
    List (String × Json) :=
  if server.scope = Scope.global then
    match getAssoc fields (r"mcpServers") with
    | some (Json.obj ms) =>
      setAssoc fields (r"mcpServers") (Json.obj (delAssoc ms server.name))
    | _ => fields
  else
    match getAssoc fields (r"projects") with
    | some (Json.obj projs) =>
      match getAssoc projs server.projectPath with
      | some (Json.obj proj) =>
        match getAssoc proj (r"mcpServers") with
        | some (Json.obj ms) =>
          setAssoc fields (r"projects") (Json.obj (setAssoc projs server.projectPath
            (Json.obj (setAssoc proj (r"mcpServers")
              (Json.obj (delAssoc ms server.name))))))
        | _ => fields
      | _ => fields
    | _ => fields

/-- Removal on a whole (already goNormalized) document value. -/
def removeServerDoc (doc : Json) (server : MCPServer) : Json :=
  match doc with
  | Json.obj fields => Json.obj (removeFromFields fields server)
  | other => other

/-- config.RemoveServer, content level: parse the document generically
(json.Unmarshal into map[string]interface{} accepts an object or null and
rejects everything else), delete, and marshal back with 2-space
indentation. Returns the content that the atomic write stores. -/
def removeServer (content : String) (server : MCPServer) : Except String String :=
  match jsonParse content with
  | none => Except.error (r"failed to parse config")
  | some j =>
    match j with
    | Json.obj _ => Except.ok (marshalIndent (removeServerDoc (goNormalize j) server))
    | Json.null => Except.ok (marshalIndent Json.null)
    | _ => Except.error (r"failed to parse config")

/-- The file system: an association list from path to file content. -/
def FS : Type := List (String × String)

/-- Backup file name: {original}.backup.{timestamp}, the timestamp
formatted as YYYYMMDD-HHMMSS by the caller of this model. -/
def backupName (path ts : String) : String := path ++ (r".backup.") ++ ts

/-- config.Backup: read the file (failing, unlike Load, when it does not
exist) and write a byte-for-byte copy under the backup name. Returns the
new file system and the backup path. -/
def backup (fs : FS) (path ts : String) : Except String (FS × String) :=
  match getAssoc fs path with
  | none => Except.error (r"failed to read config for backup")
  | some content => Except.ok (setAssoc fs (backupName path ts) content, backupName path ts)

/-- config.RemoveServer at the file level: read, transform, atomically
replace. The pair is the resulting file system and the error, if any; on
error the file system is unchanged. -/
def removeServerFS (fs : FS) (path : String) (server : MCPServer) : FS × Option String :=
  match getAssoc fs path with
  | none => (fs, some (r"failed to read config"))
  | some content =>
    match removeServer content server with
    | Except.error e => (fs, some e)
    | Except.ok out => (setAssoc fs path out, none)

/-- config.RemoveServers: nothing at all on an empty list; otherwise one
backup (failing the whole operation if it fails), one generic parse, all
removals applied to that one in-memory document, one atomic write. -/
def removeServers (fs : FS) (path : String) (servers : List MCPServer) (ts : String) :
    FS × Option String :=
  if servers.isEmpty then (fs, none)
  else
    match backup fs path ts with
    | Except.error e => (fs, some e)
    | Except.ok (fs1, _) =>
      match getAssoc fs1 path with
      | none => (fs1, some (r"failed to read config"))
      | some content =>
        match jsonParse content with
        | none => (fs1, some (r"failed to parse config"))
        | some j =>
          match j with
          | Json.obj _ =>
            let final := servers.foldl (fun acc s => removeServerDoc acc s) (goNormalize j)
            (setAssoc fs1 path (marshalIndent final), none)
          | Json.null => (setAssoc fs1 path (marshalIndent Json.null), none)
          | _ => (fs1, some (r"failed to parse config"))

/-! ## Package transcript: parser and aggregator -/

/-- The five characters the MCP tool-name convention starts with. -/
def mcpTag : List Char := ['m', 'c', 'p', '_', '_']

/-- Index of the first occurrence of the double-underscore delimiter, as
strings.Index finds it (overlapping occurrences included); none when the
delimiter does not occur. -/
def firstDunder : List Char → Option Nat
  | [] => none
  | [_] => none
  | c1 :: c2 :: rest =>
    if c1 = '_' ∧ c2 = '_' then some 0
    else (firstDunder (c2 :: rest)).map (· + 1)

/-- transcript.ExtractServerName on the character list: check the mcp
tag, split at the first delimiter after it, reject an empty server or
tool segment. -/
def extractCore (t : List Char) : List Char × List Char × Bool :=
  if mcpTag.isPrefixOf t then
    let rest := t.drop 5
    match firstDunder rest with
    | none => ([], [], false)
    | some idx =>
      if idx = 0 then ([], [], false)
      else
        let server := rest.take idx
        let tool := rest.drop (idx + 2)
        if server.isEmpty ∨ tool.isEmpty then ([], [], false)
        else (server, tool, true)
  else ([], [], false)

/-- transcript.ExtractServerName: (serverName, toolName, ok). -/
def extractServerName (t : String) : String × String × Bool :=
  let r := extractCore t.data
  (⟨r.1⟩, ⟨r.2.1⟩, r.2.2)

/-- White space trimmed by strings.TrimSpace (the characters relevant to
these logs; unicode.IsSpace also covers a few exotic code points). -/
def isGoSpace (c : Char) : Bool :=
  c = ' ' || c = '\t' || c = '\n' || c = '\r' ||
    c.toNat = 11 || c.toNat = 12 || c.toNat = 0x85 || c.toNat = 0xA0

/-- strings.TrimSpace. -/
def trimSpace (s : String) : String :=
  ⟨List.reverse (List.dropWhile isGoSpace (List.reverse (List.dropWhile isGoSpace s.data)))⟩

/-- transcript.message: role plus the raw content value (json.RawMessage
keeps whatever JSON value the field held; none = field absent). -/
structure LogMessage where
  role : String
  contentRaw : Option Json
deriving DecidableEq, Inhabited

/-- transcript.logEntry. -/
structure LogEntry where
  typ : String
  message : LogMessage
  timestamp : String
  uuid : String
deriving DecidableEq

instance : Inhabited LogEntry :=
  ⟨{ typ := ⟨[]⟩, message := default, timestamp := ⟨[]⟩, uuid := ⟨[]⟩ }⟩

/-- transcript.content: one content item of a message. -/
structure ContentItem where
  typ : String
  id : String
  name : String
  inputRaw : Option Json
deriving DecidableEq

instance : Inhabited ContentItem :=
  ⟨{ typ := ⟨[]⟩, id := ⟨[]⟩, name := ⟨[]⟩, inputRaw := none }⟩

/-- Unmarshal a JSON value into transcript.message. -/
def decodeLogMessage : Json → Option LogMessage
  | Json.null => some default
  | Json.obj fields =>
    fields.foldl
      (fun acc kv =>
        match acc with
        | none => none
        | some m =>
          if kv.1 = (r"role") then
            (decodeGoString m.role kv.2).map (fun s => { m with role := s })
          else if kv.1 = (r"content") then some { m with contentRaw := some kv.2 }
          else some m)
      (some default)
  | _ => none

/-- Unmarshal a JSON line into transcript.logEntry. -/
def decodeLogEntry : Json → Option LogEntry
  | Json.null => some default
  | Json.obj fields =>
    fields.foldl
      (fun acc kv =>
        match acc with
        | none => none
        | some e =>
          if kv.1 = (r"type") then
            (decodeGoString e.typ kv.2).map (fun s => { e with typ := s })
          else if kv.1 = (r"message") then
            (decodeLogMessage kv.2).map (fun m => { e with message := m })
          else if kv.1 = (r"timestamp") then
            (decodeGoString e.timestamp kv.2).map (fun s => { e with timestamp := s })
          else if kv.1 = (r"uuid") then
            (decodeGoString e.uuid kv.2).map (fun s => { e with uuid := s })
          else some e)
      (some default)
  | _ => none

/-- Unmarshal one element of the content array into transcript.content
(a null element leaves the zero struct; the input field must be an
object or null, as map[string]interface{} requires). -/
def decodeContentItem : Json → Option ContentItem
  | Json.null => some default
  | Json.obj fields =>
    fields.foldl
      (fun acc kv =>
        match acc with
        | none => none
        | some c =>
          if kv.1 = (r"type") then
            (decodeGoString c.typ kv.2).map (fun s => { c with typ := s })
          else if kv.1 = (r"id") then
            (decodeGoString c.id kv.2).map (fun s => { c with id := s })
          else if kv.1 = (r"name") then
            (decodeGoString c.name kv.2).map (fun s => { c with name := s })
          else if kv.1 = (r"input") then
            match kv.2 with
            | Json.null => some c
            | Json.obj _ => some { c with inputRaw := some kv.2 }
            | _ => none
          else some c)
      (some default)
  | _ => none

/-- Unmarshal the content array into []content; any failing element
fails the whole array, as json.Unmarshal does. -/
def decodeContentItems : List Json → Option (List ContentItem)
  | [] => some []
  | x :: xs =>
    match decodeContentItem x with
    | none => none
    | some c => (decodeContentItems xs).map (fun rest => c :: rest)

/-- Two decimal digit characters to a number. -/
def digit2 (a b : Char) : Option Nat :=
  if a.isDigit ∧ b.isDigit then some ((a.toNat - 48) * 10 + (b.toNat - 48)) else none

/-- Four decimal digit characters to a number. -/
def digit4 (a b c d : Char) : Option Nat :=
  match digit2 a b, digit2 c d with
  | some hi, some lo => some (hi * 100 + lo)
  | _, _ => none

/-- Gregorian leap year. -/
def isLeap (y : Nat) : Bool := (y % 4 = 0 && y % 100 ≠ 0) || y % 400 = 0

/-- Days in a month, as time.Parse validates the day field. -/
def daysInMonth (y mo : Nat) : Nat :=
  if mo = 2 then (if isLeap y then 29 else 28)
  else if mo = 4 ∨ mo = 6 ∨ mo = 9 ∨ mo = 11 then 30
  else 31

/-- Trailing offset of an RFC 3339 timestamp: Z or ±hh:mm, ending the
string. -/
def parseTsOffset : List Char → Bool
  | ['Z'] => true
  | [sgn, h1, h2, ':', m1, m2] =>
    (sgn = '+' ∨ sgn = '-') &&
      (match digit2 h1 h2, digit2 m1 m2 with
       | some h, some m => decide (h ≤ 23 ∧ m ≤ 59)
       | _, _ => false)
  | _ => false

/-- Optional fractional seconds (accepted by time.Parse whether or not
the layout shows them, which is why the RFC3339Nano fallback in the code
never changes the outcome), then the offset. -/
def parseTsFracOffset (cs : List Char) : Bool :=
  match cs with
  | '.' :: rest =>
    let p := spanDigits rest
    ¬p.1.isEmpty && parseTsOffset p.2
  | rest => parseTsOffset rest

/-- time.Parse(time.RFC3339, s), abstracted to the Nat time line: a
successful parse yields a positive mixed-radix encoding of the civil
fields (chronologically ordered for a fixed offset; the claims below
never compare instants across offsets), and any failure yields 0, the
unset sentinel, exactly as ParseLine leaves time.Time{} when both parse
attempts fail. -/
def parseTimestamp (s : String) : Nat :=
  match s.data with
  | y1 :: y2 :: y3 :: y4 :: '-' :: m1 :: m2 :: '-' :: d1 :: d2 :: 'T' ::
      h1 :: h2 :: ':' :: n1 :: n2 :: ':' :: s1 :: s2 :: rest =>
    match digit4 y1 y2 y3 y4, digit2 m1 m2, digit2 d1 d2, digit2 h1 h2,
        digit2 n1 n2, digit2 s1 s2 with
    | some y, some mo, some d, some h, some mi, some sec =>
      if 1 ≤ mo ∧ mo ≤ 12 ∧ 1 ≤ d ∧ d ≤ daysInMonth y mo ∧ h ≤ 23 ∧ mi ≤ 59 ∧
          sec ≤ 59 ∧ parseTsFracOffset rest = true then
        ((((y * 13 + mo) * 32 + d) * 24 + h) * 60 + mi) * 60 + sec
      else 0
    | _, _, _, _, _, _ => 0
  | _ => 0

/-- Walk the decoded content items: keep tool_use entries whose name
follows the MCP convention, all stamped with the line's timestamp. -/
def extractCalls (items : List ContentItem) (ts : Nat) : List ToolCall :=
  match items with
  | [] => []
  | c :: rest =>
    if c.typ = (r"tool_use") then
      let ex := extractServerName c.name
      if ex.2.2 then
        { serverName := ex.1, toolName := ex.2.1, timestamp := ts } :: extractCalls rest ts
      else extractCalls rest ts
    else extractCalls rest ts

/-- transcript.ParseLine: trim; empty lines yield nothing; invalid JSON
is an error; content is examined only when its raw value is an array
(first byte checked in the code), and an array that fails to decode into
[]content yields nothing rather than an error. -/
def parseLine (line : String) : Except String (List ToolCall) :=
  let l := trimSpace line
  if l.isEmpty then Except.ok []
  else
    match jsonParse l with
    | none => Except.error (r"failed to parse line")
    | some j =>
      match decodeLogEntry j with
      | none => Except.error (r"failed to parse line")
      | some entry =>
        match entry.message.contentRaw with
        | some (Json.arr items) =>
          match decodeContentItems items with
          | none => Except.ok []
          | some contents =>
            let ts := if entry.timestamp.isEmpty then 0 else parseTimestamp entry.timestamp
            Except.ok (extractCalls contents ts)
        | _ => Except.ok []

/-- Split file content the way bufio.ScanLines tokenizes it: lines end at
a newline (consumed, optional preceding carriage return stripped), and a
final unterminated line is still a token. -/
def splitLinesAux (cur : List Char) : List Char → List (List Char)
  | [] => if cur.isEmpty then [] else [cur.reverse]
  | c :: cs =>
    if c = '\n' then cur.reverse :: splitLinesAux [] cs else splitLinesAux (c :: cur) cs

/-- Strip one trailing carriage return, as bufio.ScanLines does. -/
def dropCR (l : List Char) : List Char :=
  if l.getLast? = some '\r' then l.dropLast else l

/-- The lines of a file's content. -/
def splitLines (content : String) : List String :=
  (splitLinesAux [] content.data).map (fun l => ⟨dropCR l⟩)

/-- The scanner loop of transcript.ParseFile: lines whose ParseLine
fails are skipped, every other line contributes its calls in order. -/
def scanLines : List String → List ToolCall
  | [] => []
  | l :: ls =>
    match parseLine l with
    | Except.error _ => scanLines ls
    | Except.ok cs => cs ++ scanLines ls

/-- transcript.ParseFile on the content of an existing file: a zero-byte
file is answered empty before any scanning; otherwise scan line by line.
(The open/stat failures and the scanner I/O error path concern the real
file system and are outside this content-level model.) -/
def parseFile (content : String) : List ToolCall :=
  if content.isEmpty then [] else scanLines (splitLines content)

/-- A fresh stats record for a server name (zero calls, unset lastUsed,
empty tool map). -/
def freshStats (name : String) : ServerStats :=
  { name := name, calls := 0, lastUsed := 0, tools := [] }

/-- stats.Tools[call.ToolName]++ on the tool-count map. -/
def bumpTool (tools : List (String × Nat)) (tool : String) : List (String × Nat) :=
  setAssoc tools tool ((match getAssoc tools tool with | some n => n | none => 0) + 1)

/-- One call folded into its server's stats: count, per-tool count, and
lastUsed updated only when call.Timestamp.After(stats.LastUsed). -/
def updateStats (s : ServerStats) (c : ToolCall) : ServerStats :=
  { s with
    calls := s.calls + 1
    tools := bumpTool s.tools c.toolName
    lastUsed := if c.timestamp > s.lastUsed then c.timestamp else s.lastUsed }

/-- Fold one call into the stats collection, creating the record on first
sight of the server name (the statsMap of AggregateStats, with insertion
order standing in for Go's unordered map). -/
def insertCall : List ServerStats → ToolCall → List ServerStats
  | [], c => [updateStats (freshStats c.serverName) c]
  | s :: rest, c =>
    if s.name = c.serverName then updateStats s c :: rest
    else s :: insertCall rest c

/-- transcript.AggregateStats. -/
def aggregateStats (calls : List ToolCall) : List ServerStats :=
  calls.foldl insertCall []

/-- transcript.FilterByPeriod at the instant nowT: PeriodAll returns the
input unchanged, any other period retains the calls whose timestamp is
strictly after nowT minus the period's duration. -/
def filterByPeriod (calls : List ToolCall) (p : Period) (nowT : Nat) : List ToolCall :=
  if p = Period.all then calls
  else calls.filter (fun c => decide (nowT - p.duration < c.timestamp))

/-! ## Claims C4 and C10: the tool-name convention -/

theorem firstDunder_spec : ∀ (l : List Char) (i : Nat), firstDunder l = some i →
    (l.take i).length = i ∧ l = l.take i ++ '_' :: '_' :: l.drop (i + 2)
  | [], i => by simp [firstDunder]
  | [c], i => by simp [firstDunder]
  | c1 :: c2 :: rest, i => by
    intro h
    rw [firstDunder] at h
    by_cases hc : c1 = '_' ∧ c2 = '_'
    · rw [if_pos hc] at h
      obtain ⟨h1, h2⟩ := hc
      cases h
      subst h1; subst h2
      simp
    · rw [if_neg hc] at h
      obtain ⟨j, hj, hji⟩ := Option.map_eq_some'.mp h
      subst hji
      have IH := firstDunder_spec (c2 :: rest) j hj
      refine ⟨by simpa using IH.1, ?_⟩
      have : c2 :: rest = (c2 :: rest).take j ++ '_' :: '_' :: (c2 :: rest).drop (j + 2) := IH.2
      calc c1 :: c2 :: rest
      _ = c1 :: ((c2 :: rest).take j ++ '_' :: '_' :: (c2 :: rest).drop (j + 2)) := by
        rw [← this]
      _ = (c1 :: c2 :: rest).take (j + 1) ++ '_' :: '_' :: (c1 :: c2 :: rest).drop (j + 1 + 2) := by
        simp [List.take_succ_cons, List.drop_succ_cons]

theorem firstDunder_take_none : ∀ (l : List Char) (i : Nat), firstDunder l = some i →
    firstDunder (l.take (i + 1)) = none
  | [], i => by simp [firstDunder]
  | [c], i => by simp [firstDunder]
  | c1 :: c2 :: rest, i => by
    intro h
    rw [firstDunder] at h
    by_cases hc : c1 = '_' ∧ c2 = '_'
    · rw [if_pos hc] at h
      cases h
      simp [firstDunder]
    · rw [if_neg hc] at h
      obtain ⟨j, hj, hji⟩ := Option.map_eq_some'.mp h
      subst hji
      have IH := firstDunder_take_none (c2 :: rest) j hj
      rw [List.take_succ_cons] at IH
      rw [List.take_succ_cons, List.take_succ_cons]
      rw [firstDunder, if_neg hc, IH]
      rfl

theorem firstDunder_append_of_first : ∀ (s t : List Char),
    firstDunder (s ++ ['_']) = none → firstDunder (s ++ '_' :: '_' :: t) = some s.length
  | [], t => by intro h; simp [firstDunder]
  | [c], t => by
    intro h
    rw [List.cons_append, List.nil_append, firstDunder] at h
    by_cases hc : c = '_' ∧ ('_' : Char) = '_'
    · rw [if_pos hc] at h; cases h
    · show firstDunder (c :: '_' :: '_' :: t) = some 1
      rw [firstDunder, if_neg hc]
      rw [show firstDunder ('_' :: '_' :: t) = some 0 from by rw [firstDunder]; simp]
      rfl
  | c1 :: c2 :: s, t => by
    intro h
    rw [List.cons_append, List.cons_append, firstDunder] at h
    by_cases hc : c1 = '_' ∧ c2 = '_'
    · rw [if_pos hc] at h; cases h
    · rw [if_neg hc] at h
      have h2 : firstDunder ((c2 :: s) ++ ['_']) = none := by
        rw [List.cons_append]
        cases hfd : firstDunder (c2 :: (s ++ ['_'])) with
        | none => rfl
        | some j => rw [hfd] at h; cases h
      have IH := firstDunder_append_of_first (c2 :: s) t h2
      show firstDunder (c1 :: ((c2 :: s) ++ '_' :: '_' :: t)) = some (c1 :: c2 :: s).length
      rw [List.cons_append] at IH ⊢
      rw [firstDunder, if_neg hc, IH]
      rfl

theorem firstDunder_append_none_left : ∀ (s t : List Char),
    firstDunder (s ++ t) = none → firstDunder s = none
  | [], t => by intro h; rfl
  | [c], t => by intro h; rfl
  | c1 :: c2 :: s, t => by
    intro h
    rw [List.cons_append, List.cons_append, firstDunder] at h
    rw [firstDunder]
    by_cases hc : c1 = '_' ∧ c2 = '_'
    · rw [if_pos hc] at h; cases h
    · rw [if_neg hc] at h ⊢
      have h2 : firstDunder ((c2 :: s) ++ t) = none := by
        rw [List.cons_append]
        cases hfd : firstDunder (c2 :: (s ++ t)) with
        | none => rfl
        | some j => rw [hfd] at h; cases h
      rw [firstDunder_append_none_left (c2 :: s) t h2]
      rfl

theorem take_len_append_cons : ∀ (s : List Char) (x : Char) (r : List Char),
    (s ++ x :: r).take (s.length + 1) = s ++ [x]
  | [], x, r => by simp
  | c :: s, x, r => by
    simp only [List.cons_append, List.length_cons, List.take_succ_cons]
    rw [take_len_append_cons s x r]

theorem extractCore_ok_iff (t s tool : List Char) :
    extractCore t = (s, tool, true) ↔
      (t = mcpTag ++ (s ++ '_' :: '_' :: tool) ∧ s ≠ [] ∧ tool ≠ [] ∧
        firstDunder (s ++ ['_']) = none) := by
  constructor
  · intro h
    unfold extractCore at h
    by_cases hp : mcpTag.isPrefixOf t
    swap
    · rw [if_neg hp] at h
      cases h
    rw [if_pos hp] at h
    obtain ⟨u, hu⟩ := List.isPrefixOf_iff_prefix.mp hp
    have hlen : mcpTag.length = 5 := rfl
    have hrest : t.drop 5 = u := by rw [← hu, ← hlen, List.drop_left]
    rw [hrest] at h
    cases hfd : firstDunder u with
    | none => simp only [hfd] at h; cases h
    | some idx =>
      simp only [hfd] at h
      by_cases hidx : idx = 0
      · rw [if_pos hidx] at h; cases h
      rw [if_neg hidx] at h
      by_cases hemp : (u.take idx).isEmpty = true ∨ (u.drop (idx + 2)).isEmpty = true
      · rw [if_pos hemp] at h; cases h
      rw [if_neg hemp] at h
      have hs : u.take idx = s := congrArg (fun p => p.1) h
      have htool : u.drop (idx + 2) = tool := congrArg (fun p => p.2.1) h
      have hspec := firstDunder_spec u idx hfd
      have hu2 : u = s ++ '_' :: '_' :: tool := by rw [← hs, ← htool]; exact hspec.2
      have hslen : s.length = idx := by rw [← hs]; exact hspec.1
      refine ⟨by rw [← hu, hu2], ?_, ?_, ?_⟩
      · intro hcon
        rw [hcon] at hs
        simp [← hs] at hemp
      · intro hcon
        rw [hcon] at htool
        simp [← htool] at hemp
      · have htake := firstDunder_take_none u idx hfd
        have : u.take (idx + 1) = s ++ ['_'] := by
          rw [hu2, ← hslen]
          exact take_len_append_cons s '_' ('_' :: tool)
        rw [this] at htake
        exact htake
  · rintro ⟨ht, hs, htool, hnd⟩
    subst ht
    unfold extractCore
    have hp : mcpTag.isPrefixOf (mcpTag ++ (s ++ '_' :: '_' :: tool)) = true :=
      List.isPrefixOf_iff_prefix.mpr ⟨_, rfl⟩
    rw [if_pos hp]
    have hlen : mcpTag.length = 5 := rfl
    have hdrop : (mcpTag ++ (s ++ '_' :: '_' :: tool)).drop 5 = s ++ '_' :: '_' :: tool := by
      rw [← hlen, List.drop_left]
    rw [hdrop]
    have hfd := firstDunder_append_of_first s tool hnd
    simp only [hfd]
    have hlen0 : s.length ≠ 0 := fun hc => hs (List.length_eq_zero.mp hc)
    rw [if_neg hlen0]
    have htake : (s ++ '_' :: '_' :: tool).take s.length = s := List.take_left s _
    have hdrop2 : (s ++ '_' :: '_' :: tool).drop (s.length + 2) = tool := by
      have : s ++ '_' :: '_' :: tool = (s ++ ['_', '_']) ++ tool := by simp
      rw [this, show s.length + 2 = (s ++ ['_', '_']).length from by simp, List.drop_left]
    rw [htake, hdrop2]
    rw [if_neg (by simp [List.isEmpty_iff, hs, htool])]

/-- The five-character tag mcp__ as a String. -/
def mcpTagStr : String := ⟨mcpTag⟩

theorem extractCore_eq_iff (t server tool : String) :
    extractServerName t = (server, tool, true) ↔
      extractCore t.data = (server.data, tool.data, true) := by
  unfold extractServerName
  cases hr : extractCore t.data with
  | mk a bc =>
    cases bc with
    | mk b ok =>
      simp only []
      constructor
      · intro h
        injection h with h1 h2
        injection h2 with h2 h3
        subst h3
        rw [← h1, ← h2]
      · intro h
        injection h with h1 h2
        injection h2 with h2 h3
        subst h3
        rw [show server = ⟨a⟩ from String.ext h1.symm, show tool = ⟨b⟩ from String.ext h2.symm]

theorem extractServerName_ok_iff (t server tool : String) :
    extractServerName t = (server, tool, true) ↔
      (t = mcpTagStr ++ server ++ (r"__") ++ tool ∧ server ≠ (r"") ∧ tool ≠ (r"") ∧
        firstDunder (server.data ++ ['_']) = none) := by
  rw [extractCore_eq_iff, extractCore_ok_iff]
  have hdata : (mcpTagStr ++ server ++ (r"__") ++ tool).data =
      mcpTag ++ (server.data ++ '_' :: '_' :: tool.data) := by
    simp [String.data_append, mcpTagStr]
  constructor
  · rintro ⟨h1, h2, h3, h4⟩
    refine ⟨String.ext (by rw [h1, hdata]), ?_, ?_, h4⟩
    · intro hc; apply h2; rw [hc]
    · intro hc; apply h3; rw [hc]
  · rintro ⟨h1, h2, h3, h4⟩
    refine ⟨by rw [h1, hdata], ?_, ?_, h4⟩
    · intro hc
      apply h2
      exact String.ext hc
    · intro hc
      apply h3
      exact String.ext hc

/-- C4: ExtractServerName accepts exactly the names of the form
mcp__{server}__{tool} split at the first delimiter occurrence after the
tag (so the delimiter shown is the first one: no earlier delimiter starts
inside server or at its boundary), with both segments nonempty; the
spec's four examples behave as stated. -/
theorem claim_C4 :
    (∀ (t server tool : String),
      extractServerName t = (server, tool, true) ↔
        (t = mcpTagStr ++ server ++ (r"__") ++ tool ∧ server ≠ (r"") ∧ tool ≠ (r"") ∧
          firstDunder (server.data ++ ['_']) = none)) ∧
    extractServerName (r"mcp__context7__resolve-library-id") =
      ((r"context7"), (r"resolve-library-id"), true) ∧
    extractServerName (r"Read") = ((r""), (r""), false) ∧
    extractServerName (r"mcp__") = ((r""), (r""), false) ∧
    extractServerName (r"mcp__context7") = ((r""), (r""), false) :=
  ⟨extractServerName_ok_iff, rfl, rfl, rfl, rfl⟩

theorem claim_C4_witness :
    extractServerName (r"mcp__alpha__beta-x") = ((r"alpha"), (r"beta-x"), true) :=
  (claim_C4.1 (r"mcp__alpha__beta-x") (r"alpha") (r"beta-x")).mpr (by decide)

/-- C10: whenever ExtractServerName answers ok, gluing
mcp__ ++ server ++ __ ++ tool gives back the input, the server segment is
nonempty and contains no double-underscore delimiter, and the tool
segment is nonempty. -/
theorem claim_C10 (t server tool : String)
    (h : extractServerName t = (server, tool, true)) :
    mcpTagStr ++ server ++ (r"__") ++ tool = t ∧ server ≠ (r"") ∧
      firstDunder server.data = none ∧ tool ≠ (r"") := by
  obtain ⟨h1, h2, h3, h4⟩ := (extractServerName_ok_iff t server tool).mp h
  exact ⟨h1.symm, h2, firstDunder_append_none_left server.data ['_'] h4, h3⟩

theorem claim_C10_witness :
    mcpTagStr ++ (r"gamma") ++ (r"__") ++ (r"delta") = (r"mcp__gamma__delta") ∧
      (r"gamma") ≠ (r"") ∧ firstDunder (r"gamma").data = none ∧ (r"delta") ≠ (r"") :=
  claim_C10 (r"mcp__gamma__delta") (r"gamma") (r"delta") (by decide)

/-! ## Claim C5: aggregation invariants -/

/-- Sum of the per-tool call counts of a stats record. -/
def toolsSum (tools : List (String × Nat)) : Nat := (tools.map Prod.snd).sum

/-- The calls of a sequence addressed to one server name. -/
def callsFor (name : String) (calls : List ToolCall) : List ToolCall :=
  calls.filter (fun c => decide (c.serverName = name))

/-- Maximum timestamp of a sequence of calls, the unset sentinel 0 when
there are none (or none has a real timestamp). -/
def maxTS (calls : List ToolCall) : Nat :=
  calls.foldr (fun c m => max c.timestamp m) 0

/-- A stats record after folding in a sequence of calls. -/
def applyCalls (s : ServerStats) (cs : List ToolCall) : ServerStats :=
  cs.foldl updateStats s

/-- First stats record with the given name. -/
def statsLookup : List ServerStats → String → Option ServerStats
  | [], _ => none
  | s :: rest, n => if s.name = n then some s else statsLookup rest n

theorem bumpTool_sum (tools : List (String × Nat)) (t : String) :
    toolsSum (bumpTool tools t) = toolsSum tools + 1 := by
  unfold bumpTool
  induction tools with
  | nil => simp [toolsSum, setAssoc, getAssoc]
  | cons kv rest ih =>
    obtain ⟨k, v⟩ := kv
    by_cases hk : k = t
    · subst hk
      simp [getAssoc, setAssoc, toolsSum]
      omega
    · simp only [getAssoc, setAssoc, if_neg hk, toolsSum, List.map_cons,
        List.sum_cons] at ih ⊢
      omega

theorem updateStats_name (s : ServerStats) (c : ToolCall) :
    (updateStats s c).name = s.name := rfl

theorem updateStats_lastUsed (s : ServerStats) (c : ToolCall) :
    (updateStats s c).lastUsed = max s.lastUsed c.timestamp := by
  show (if c.timestamp > s.lastUsed then c.timestamp else s.lastUsed) = _
  rcases Nat.lt_or_ge s.lastUsed c.timestamp with h | h
  · rw [if_pos h, Nat.max_eq_right (Nat.le_of_lt h)]
  · rw [if_neg (by omega), Nat.max_eq_left h]

theorem statsLookup_insertCall (acc : List ServerStats) (c : ToolCall) (n : String) :
    statsLookup (insertCall acc c) n =
      if c.serverName = n then
        some (updateStats ((statsLookup acc n).getD (freshStats n)) c)
      else statsLookup acc n := by
  induction acc with
  | nil =>
    by_cases hc : c.serverName = n
    · subst hc
      simp [insertCall, statsLookup, updateStats_name, freshStats]
    · simp [insertCall, statsLookup, updateStats_name, freshStats, hc]
  | cons s rest ih =>
    by_cases hsn : s.name = c.serverName
    · rw [show insertCall (s :: rest) c = updateStats s c :: rest from by
        simp [insertCall, hsn]]
      by_cases hc : c.serverName = n
      · subst hc
        simp [statsLookup, updateStats_name, hsn]
      · have hs : ¬(s.name = n) := by rw [hsn]; exact hc
        simp [statsLookup, updateStats_name, hsn, hs, hc]
    · rw [show insertCall (s :: rest) c = s :: insertCall rest c from by
        simp [insertCall, hsn]]
      by_cases hs : s.name = n
      · have hc : ¬(c.serverName = n) := by
          intro h; exact hsn (hs.trans h.symm)
        simp [statsLookup, hs, hc]
      · simp only [statsLookup, if_neg hs]
        exact ih

theorem aggLookup : ∀ (calls : List ToolCall) (acc : List ServerStats) (n : String),
    statsLookup (calls.foldl insertCall acc) n =
      match statsLookup acc n with
      | some s => some (applyCalls s (callsFor n calls))
      | none =>
        if callsFor n calls = [] then none
        else some (applyCalls (freshStats n) (callsFor n calls))
  | [], acc, n => by
    cases h : statsLookup acc n <;> simp [callsFor, applyCalls, h]
  | c :: cs, acc, n => by
    rw [List.foldl_cons, aggLookup cs (insertCall acc c) n, statsLookup_insertCall]
    by_cases hc : c.serverName = n
    · rw [if_pos hc]
      have hfor : callsFor n (c :: cs) = c :: callsFor n cs := by
        simp [callsFor, List.filter_cons, hc]
      cases hacc : statsLookup acc n with
      | some s => simp [hfor, applyCalls]
      | none => simp [hfor, applyCalls]
    · rw [if_neg hc]
      have hfor : callsFor n (c :: cs) = callsFor n cs := by
        simp [callsFor, List.filter_cons, hc]
      rw [hfor]

theorem insertCall_name_mem : ∀ (acc : List ServerStats) (c : ToolCall) (x : String),
    x ∈ (insertCall acc c).map ServerStats.name →
      x ∈ acc.map ServerStats.name ∨ x = c.serverName
  | [], c, x => by simp [insertCall, updateStats_name, freshStats]
  | s :: rest, c, x => by
    by_cases hsn : s.name = c.serverName
    · rw [show insertCall (s :: rest) c = updateStats s c :: rest from by
        simp [insertCall, hsn]]
      intro h
      rcases List.mem_cons.mp h with h | h
    -- x = (updateStats s c).name = s.name
      · left; exact List.mem_cons.mpr (Or.inl (h.trans (updateStats_name s c)))
      · left; exact List.mem_cons.mpr (Or.inr h)
    · rw [show insertCall (s :: rest) c = s :: insertCall rest c from by
        simp [insertCall, hsn]]
      intro h
      rcases List.mem_cons.mp h with h | h
      · left; exact List.mem_cons.mpr (Or.inl h)
      · rcases insertCall_name_mem rest c x h with h2 | h2
        · left; exact List.mem_cons.mpr (Or.inr h2)
        · right; exact h2

theorem insertCall_nodup : ∀ (acc : List ServerStats) (c : ToolCall),
    (acc.map ServerStats.name).Nodup → ((insertCall acc c).map ServerStats.name).Nodup
  | [], c => by simp [insertCall]
  | s :: rest, c => by
    intro h
    rw [List.map_cons, List.nodup_cons] at h
    by_cases hsn : s.name = c.serverName
    · rw [show insertCall (s :: rest) c = updateStats s c :: rest from by
        simp [insertCall, hsn]]
      rw [List.map_cons, List.nodup_cons, updateStats_name]
      exact h
    · rw [show insertCall (s :: rest) c = s :: insertCall rest c from by
        simp [insertCall, hsn]]
      rw [List.map_cons, List.nodup_cons]
      refine ⟨?_, insertCall_nodup rest c h.2⟩
      intro hmem
      rcases insertCall_name_mem rest c s.name hmem with h2 | h2
      · exact h.1 h2
      · exact hsn h2

theorem agg_nodup : ∀ (calls : List ToolCall) (acc : List ServerStats),
    (acc.map ServerStats.name).Nodup →
      ((calls.foldl insertCall acc).map ServerStats.name).Nodup
  | [], _acc => fun h => h
  | c :: cs, acc => fun h => agg_nodup cs (insertCall acc c) (insertCall_nodup acc c h)

theorem statsLookup_of_mem : ∀ (l : List ServerStats) (s : ServerStats),
    (l.map ServerStats.name).Nodup → s ∈ l → statsLookup l s.name = some s
  | [], _s => by simp
  | x :: rest, s => by
    intro hnd hmem
    rw [List.map_cons, List.nodup_cons] at hnd
    rcases List.mem_cons.mp hmem with h | h
    · subst h
      simp [statsLookup]
    · have hx : ¬(x.name = s.name) := by
        intro hc
        exact hnd.1 (hc ▸ (List.mem_map.mpr ⟨s, h, rfl⟩))
      rw [statsLookup, if_neg hx]
      exact statsLookup_of_mem rest s hnd.2 h

theorem applyCalls_name : ∀ (cs : List ToolCall) (s : ServerStats),
    (applyCalls s cs).name = s.name
  | [], _s => rfl
  | c :: cs, s => (applyCalls_name cs (updateStats s c)).trans (updateStats_name s c)

theorem applyCalls_calls : ∀ (cs : List ToolCall) (s : ServerStats),
    (applyCalls s cs).calls = s.calls + cs.length
  | [], s => rfl
  | c :: cs, s => by
    show (applyCalls (updateStats s c) cs).calls = _
    rw [applyCalls_calls cs (updateStats s c)]
    show s.calls + 1 + cs.length = s.calls + (cs.length + 1)
    omega

theorem applyCalls_toolsSum : ∀ (cs : List ToolCall) (s : ServerStats),
    toolsSum (applyCalls s cs).tools = toolsSum s.tools + cs.length
  | [], s => rfl
  | c :: cs, s => by
    show toolsSum (applyCalls (updateStats s c) cs).tools = _
    rw [applyCalls_toolsSum cs (updateStats s c)]
    show toolsSum (bumpTool s.tools c.toolName) + cs.length = _
    rw [bumpTool_sum, List.length_cons]
    omega

theorem applyCalls_lastUsed : ∀ (cs : List ToolCall) (s : ServerStats),
    (applyCalls s cs).lastUsed = max s.lastUsed (maxTS cs)
  | [], s => by simp [applyCalls, maxTS]
  | c :: cs, s => by
    show (applyCalls (updateStats s c) cs).lastUsed = _
    rw [applyCalls_lastUsed cs (updateStats s c), updateStats_lastUsed]
    show max (max s.lastUsed c.timestamp) (maxTS cs) = max s.lastUsed (maxTS (c :: cs))
    rw [show maxTS (c :: cs) = max c.timestamp (maxTS cs) from rfl, Nat.max_assoc]

theorem maxTS_zero_iff (cs : List ToolCall) :
    maxTS cs = 0 ↔ ∀ c ∈ cs, c.timestamp = 0 := by
  induction cs with
  | nil => simp [maxTS]
  | cons c rest ih =>
    rw [show maxTS (c :: rest) = max c.timestamp (maxTS rest) from rfl]
    simp only [List.mem_cons]
    constructor
    · intro h
      have h1 : c.timestamp = 0 := by omega
      have h2 : maxTS rest = 0 := by omega
      intro x hx
      rcases hx with hx | hx
      · subst hx; exact h1
      · exact ih.mp h2 x hx
    · intro h
      have h1 : c.timestamp = 0 := h c (Or.inl rfl)
      have h2 : maxTS rest = 0 := ih.mpr (fun x hx => h x (Or.inr hx))
      omega

/-- C5: every record AggregateStats produces has calls equal to the sum
of its per-tool counts, lastUsed the maximum timestamp over the calls
addressed to its server name (so an unset timestamp never displaces a
real one), and lastUsed remains the unset sentinel exactly when no
contributing call carried a real timestamp. -/
theorem claim_C5 (calls : List ToolCall) (s : ServerStats)
    (hmem : s ∈ aggregateStats calls) :
    s.calls = toolsSum s.tools ∧
    s.lastUsed = maxTS (callsFor s.name calls) ∧
    (s.lastUsed = 0 ↔ ∀ c ∈ calls, c.serverName = s.name → c.timestamp = 0) := by
  have hnd : ((aggregateStats calls).map ServerStats.name).Nodup :=
    agg_nodup calls [] (by simp)
  have hlk := statsLookup_of_mem (aggregateStats calls) s hnd hmem
  unfold aggregateStats at hlk
  rw [aggLookup calls [] s.name] at hlk
  simp only [statsLookup] at hlk
  by_cases he : callsFor s.name calls = []
  · rw [if_pos he] at hlk
    cases hlk
  rw [if_neg he] at hlk
  have hs : s = applyCalls (freshStats s.name) (callsFor s.name calls) :=
    (Option.some.injEq .. ▸ hlk).symm
  have hcalls : s.calls = (callsFor s.name calls).length := by
    conv_lhs => rw [hs]
    rw [applyCalls_calls]
    simp [freshStats]
  have htools : toolsSum s.tools = (callsFor s.name calls).length := by
    conv_lhs => rw [hs]
    rw [applyCalls_toolsSum]
    simp [freshStats, toolsSum]
  have hlast : s.lastUsed = maxTS (callsFor s.name calls) := by
    conv_lhs => rw [hs]
    rw [applyCalls_lastUsed]
    show max 0 _ = _
    omega
  refine ⟨hcalls.trans htools.symm, hlast, ?_⟩
  rw [hlast, maxTS_zero_iff]
  constructor
  · intro h c hc hn
    exact h c (List.mem_filter.mpr ⟨hc, by simp [hn]⟩)
  · intro h c hc
    have := List.mem_filter.mp hc
    exact h c this.1 (by simpa using this.2)

/-- Calls used by the C5 witness. -/
def c5calls : List ToolCall :=
  [⟨(r"a"), (r"t1"), 5⟩, ⟨(r"a"), (r"t2"), 0⟩, ⟨(r"b"), (r"u"), 7⟩]

/-- The record C5's witness instantiates the claim at. -/
def c5stat : ServerStats := ⟨(r"a"), 2, 5, [((r"t1"), 1), ((r"t2"), 1)]⟩

theorem claim_C5_witness :
    c5stat ∈ aggregateStats c5calls ∧
    (c5stat.calls = toolsSum c5stat.tools ∧
      c5stat.lastUsed = maxTS (callsFor c5stat.name c5calls) ∧
      (c5stat.lastUsed = 0 ↔ ∀ c ∈ c5calls, c.serverName = c5stat.name → c.timestamp = 0)) :=
  ⟨by decide, claim_C5 c5calls c5stat (by decide)⟩

/-! ## Claim C6: period filtering -/

/-- C6: the all-time period passes the call sequence through unchanged;
any bounded period (at an instant no earlier than its duration, as any
real clock instant is) retains exactly the calls whose timestamp is real
(non-zero) and strictly after nowT minus the duration, so unset
timestamps are always excluded from a bounded period. -/
theorem claim_C6 :
    (∀ (calls : List ToolCall) (nowT : Nat),
      filterByPeriod calls Period.all nowT = calls) ∧
    (∀ (calls : List ToolCall) (nowT : Nat) (p : Period), p ≠ Period.all →
      p.duration ≤ nowT →
        filterByPeriod calls p nowT =
          calls.filter (fun c =>
            decide (c.timestamp ≠ 0 ∧ nowT - p.duration < c.timestamp))) := by
  constructor
  · intro calls nowT
    simp [filterByPeriod]
  · intro calls nowT p hp _hle
    rw [filterByPeriod, if_neg hp]
    apply List.filter_congr
    intro c _
    rw [decide_eq_decide]
    omega

/-- Instant used by the C6 witness: day 100 on the abstract time line. -/
def c6now : Nat := 100 * 24 * 3600

/-- Calls used by the C6 witness: one a day old, one 60 days old, one
with the unset timestamp. -/
def c6calls : List ToolCall :=
  [⟨(r"recent"), (r"t"), 99 * 24 * 3600⟩, ⟨(r"old"), (r"t"), 40 * 24 * 3600⟩,
    ⟨(r"never"), (r"t"), 0⟩]

theorem claim_C6_witness :
    filterByPeriod c6calls Period.all c6now = c6calls ∧
    filterByPeriod c6calls Period.d7 c6now = [⟨(r"recent"), (r"t"), 99 * 24 * 3600⟩] :=
  ⟨claim_C6.1 c6calls c6now,
    (claim_C6.2 c6calls c6now Period.d7 (by decide) (by decide)).trans (by decide)⟩

/-! ## Claim C3: Load on a missing or malformed file -/

/-- C3: loading a nonexistent path yields the empty valid store (zero
servers, no error); loading an existing file whose content is not valid
JSON yields an error and no store. -/
theorem claim_C3 :
    (∀ path, load path none =
      Except.ok { path := path, servers := [], serverMap := [], rawContent := none }) ∧
    (∀ path content, jsonParse content = none →
      ∃ e, load path (some content) = Except.error e) := by
  constructor
  · intro path
    rfl
  · intro path content h
    refine ⟨(r"failed to parse config json"), ?_⟩
    simp [load, h]

theorem claim_C3_witness :
    load (r"cfg") none =
      Except.ok { path := (r"cfg"), servers := [], serverMap := [], rawContent := none } ∧
    ∃ e, load (r"cfg") (some (r"not json")) = Except.error e :=
  ⟨claim_C3.1 (r"cfg"), claim_C3.2 (r"cfg") (r"not json") (by decide)⟩

/-! ## Claim C7: line-level tolerance of ParseLine -/

/-- C7: a blank or whitespace-only line parses to an empty result without
error; a non-blank line that is not valid JSON is an error; a line whose
decoded message content is not a JSON array - in particular a bare
string - yields an empty result without error; and an array that fails
to decode into content items after the array-shape check also yields an
empty result without error. -/
theorem claim_C7 :
    (∀ line, trimSpace line = (r"") → parseLine line = Except.ok []) ∧
    (∀ line, trimSpace line ≠ (r"") → jsonParse (trimSpace line) = none →
      ∃ e, parseLine line = Except.error e) ∧
    (∀ line j entry, jsonParse (trimSpace line) = some j →
      decodeLogEntry j = some entry →
      (∀ items, entry.message.contentRaw ≠ some (Json.arr items)) →
      parseLine line = Except.ok []) ∧
    (∀ line j entry items, jsonParse (trimSpace line) = some j →
      decodeLogEntry j = some entry →
      entry.message.contentRaw = some (Json.arr items) →
      decodeContentItems items = none →
      parseLine line = Except.ok []) ∧
    (∀ line j entry sVal, jsonParse (trimSpace line) = some j →
      decodeLogEntry j = some entry →
      entry.message.contentRaw = some (Json.str sVal) →
      parseLine line = Except.ok []) := by
  have hempty : ∀ l : String, l.isEmpty = true ↔ l = (r"") :=
    fun l => String.isEmpty_iff l
  refine ⟨?_, ?_, ?_, ?_, ?_⟩
  · intro line h
    have h1 : (trimSpace line).isEmpty = true := (hempty _).mpr h
    simp [parseLine, h1]
  · intro line hne hj
    have h1 : (trimSpace line).isEmpty = false :=
      Bool.eq_false_iff.mpr (fun hc => hne ((hempty _).mp hc))
    refine ⟨(r"failed to parse line"), ?_⟩
    simp [parseLine, h1, hj]
  · intro line j entry hj hentry hna
    have h1 : (trimSpace line).isEmpty = false := by
      apply Bool.eq_false_iff.mpr
      intro hc
      rw [(hempty _).mp hc] at hj
      cases hj
    rw [parseLine]
    simp only [h1, Bool.false_eq_true, if_false, hj, hentry]
  · intro line j entry items hj hentry hc hdec
    have h1 : (trimSpace line).isEmpty = false := by
      apply Bool.eq_false_iff.mpr
      intro hb
      rw [(hempty _).mp hb] at hj
      cases hj
    simp [parseLine, h1, hj, hentry, hc, hdec]
  · intro line j entry sVal hj hentry hc
    have h1 : (trimSpace line).isEmpty = false := by
      apply Bool.eq_false_iff.mpr
      intro hb
      rw [(hempty _).mp hb] at hj
      cases hj
    simp [parseLine, h1, hj, hentry, hc]

/-- A log line whose message content is a bare string (used by the C7
witness). -/
def c7line : String := "\x7b\"message\":\x7b\"content\":\"hello\"\x7d\x7d"

/-- The parsed JSON of c7line. -/
def c7json : Json :=
  Json.obj [((r"message"), Json.obj [((r"content"), Json.str (r"hello"))])]

/-- The decoded log entry of c7line. -/
def c7entry : LogEntry := ⟨(r""), ⟨(r""), some (Json.str (r"hello"))⟩, (r""), (r"")⟩

theorem claim_C7_witness :
    parseLine (r"   ") = Except.ok [] ∧
    (∃ e, parseLine (r"not json") = Except.error e) ∧
    parseLine c7line = Except.ok [] :=
  ⟨claim_C7.1 (r"   ") (by decide),
    claim_C7.2.1 (r"not json") (by decide) (by decide),
    claim_C7.2.2.2.2 c7line c7json c7entry (r"hello") (by decide) (by decide) (by decide)⟩

/-! ## Claim C8: file-level tolerance of ParseFile -/

/-- What one line contributes to a file's calls: its parsed calls, or
nothing when the line fails to parse. -/
def lineCalls (l : String) : List ToolCall :=
  match parseLine l with
  | Except.ok cs => cs
  | Except.error _ => []

theorem scanLines_eq : ∀ ls : List String, scanLines ls = (ls.map lineCalls).flatten
  | [] => rfl
  | l :: ls => by
    rw [scanLines, List.map_cons, List.flatten_cons, ← scanLines_eq ls]
    unfold lineCalls
    cases parseLine l with
    | error e => simp
    | ok cs => simp

/-- C8: a zero-byte file yields an empty result (without scanning); the
calls of a file are exactly the concatenated calls of its individually
parseable lines, so a line that fails ParseLine contributes nothing and
never aborts the file. -/
theorem claim_C8 :
    parseFile (r"") = [] ∧
    (∀ content, parseFile content = ((splitLines content).map lineCalls).flatten) ∧
    (∀ pre bad post, (∃ e, parseLine bad = Except.error e) →
      scanLines (pre ++ bad :: post) = scanLines (pre ++ post)) := by
  refine ⟨rfl, ?_, ?_⟩
  · intro content
    by_cases h : content.isEmpty = true
    · rw [String.isEmpty_iff] at h
      subst h
      rfl
    · rw [parseFile, if_neg (by simpa using h)]
      exact scanLines_eq _
  · intro pre bad post ⟨e, he⟩
    induction pre with
    | nil =>
      rw [List.nil_append, List.nil_append, scanLines, he]
    | cons l ls ih =>
      rw [List.cons_append, List.cons_append, scanLines, scanLines, ih]

/-- A one-call log line used by the C8 witness. -/
def c8good : String :=
  "\x7b\"message\":\x7b\"content\":[\x7b\"type\":\"tool_use\",\"name\":\"mcp__s__t\"\x7d]\x7d\x7d"

theorem claim_C8_witness :
    scanLines [c8good, (r"not json"), c8good] = scanLines [c8good, c8good] :=
  claim_C8.2.2 [c8good] (r"not json") [c8good]
    ⟨(r"failed to parse line"), rfl⟩

/-! ## Association-list and normalization lemmas for the removal claims -/

theorem getAssoc_setAssoc {α : Type} :
    ∀ (l : List (String × α)) (k : String) (v : α) (k2 : String),
      getAssoc (setAssoc l k v) k2 = if k2 = k then some v else getAssoc l k2
  | [], k, v, k2 => by
    by_cases h : k2 = k
    · subst h
      simp [setAssoc, getAssoc]
    · have h' : ¬(k = k2) := fun hc => h hc.symm
      simp [setAssoc, getAssoc, h, h']
  | (k1, v1) :: rest, k, v, k2 => by
    by_cases h1 : k1 = k
    · subst h1
      rw [show setAssoc ((k1, v1) :: rest) k1 v = (k1, v) :: rest from by simp [setAssoc]]
      by_cases h2 : k2 = k1
      · subst h2
        simp [getAssoc]
      · have h2' : ¬(k1 = k2) := fun hc => h2 hc.symm
        simp [getAssoc, h2, h2']
    · rw [show setAssoc ((k1, v1) :: rest) k v = (k1, v1) :: setAssoc rest k v from by
        simp [setAssoc, h1]]
      by_cases h2 : k1 = k2
      · subst h2
        have h2' : ¬(k1 = k) := h1
        simp [getAssoc, h2']
      · have ih := getAssoc_setAssoc rest k v k2
        simp [getAssoc, h2, ih]

theorem getAssoc_delAssoc {α : Type} :
    ∀ (l : List (String × α)) (k k2 : String),
      getAssoc (delAssoc l k) k2 = if k2 = k then none else getAssoc l k2
  | [], k, k2 => by
    by_cases h : k2 = k <;> simp [delAssoc, getAssoc, h]
  | (k1, v1) :: rest, k, k2 => by
    by_cases h1 : k1 = k
    · subst h1
      rw [show delAssoc ((k1, v1) :: rest) k1 = delAssoc rest k1 from by simp [delAssoc]]
      rw [getAssoc_delAssoc rest k1 k2]
      by_cases h2 : k2 = k1
      · simp [h2]
      · have h2' : ¬(k1 = k2) := fun hc => h2 hc.symm
        simp [getAssoc, h2, h2']
    · rw [show delAssoc ((k1, v1) :: rest) k = (k1, v1) :: delAssoc rest k from by
        simp [delAssoc, h1]]
      by_cases h2 : k1 = k2
      · subst h2
        have h2' : ¬(k1 = k) := h1
        simp [getAssoc, h2']
      · have ih := getAssoc_delAssoc rest k k2
        simp [getAssoc, h2, ih]

theorem setAssoc_self {α : Type} : ∀ (l : List (String × α)) (k : String) (v : α),
    getAssoc l k = some v → setAssoc l k v = l
  | [], k, v => by simp [getAssoc]
  | (k1, v1) :: rest, k, v => by
    intro h
    by_cases h1 : k1 = k
    · subst h1
      rw [getAssoc, if_pos rfl] at h
      cases h
      simp [setAssoc]
    · rw [getAssoc, if_neg h1] at h
      rw [setAssoc, if_neg h1, setAssoc_self rest k v h]

theorem delAssoc_of_none {α : Type} : ∀ (l : List (String × α)) (k : String),
    getAssoc l k = none → delAssoc l k = l
  | [], k => by simp [delAssoc]
  | (k1, v1) :: rest, k => by
    intro h
    by_cases h1 : k1 = k
    · rw [getAssoc, if_pos h1] at h
      cases h
    · rw [getAssoc, if_neg h1] at h
      rw [delAssoc, if_neg h1, delAssoc_of_none rest k h]

theorem getAssoc_dedup_gen : ∀ (fields : List (String × Json))
    (acc : List (String × Json)) (k : String),
    getAssoc (fields.foldl (fun a kv => setAssoc a kv.1 kv.2) acc) k =
      match lastAssoc fields k with
      | some v => some v
      | none => getAssoc acc k
  | [], acc, k => by simp [lastAssoc]
  | (k1, v1) :: fs, acc, k => by
    rw [List.foldl_cons, getAssoc_dedup_gen fs (setAssoc acc k1 v1) k]
    simp only [lastAssoc]
    cases lastAssoc fs k with
    | some w => rfl
    | none =>
      rw [getAssoc_setAssoc]
      by_cases h : k = k1
      · simp [h]
      · have h' : ¬(k1 = k) := fun hc => h hc.symm
        simp [h, h']

theorem getAssoc_dedupFields (fields : List (String × Json)) (k : String) :
    getAssoc (dedupFields fields) k = lastAssoc fields k := by
  rw [dedupFields, getAssoc_dedup_gen]
  cases lastAssoc fields k <;> simp [getAssoc]

theorem strLeChars_refl : ∀ l : List Char, strLeChars l l = true
  | [] => rfl
  | c :: cs => by rw [strLeChars, if_pos rfl, strLeChars_refl cs]

theorem strLe_refl (s : String) : strLe s s = true := strLeChars_refl s.data

theorem getAssoc_insertField (f : String × Json) :
    ∀ (m : List (String × Json)) (k : String),
      getAssoc (insertField f m) k = if k = f.1 then some f.2 else getAssoc m k
  | [], k => by
    by_cases h : k = f.1
    · simp [insertField, getAssoc, h]
    · have h' : ¬(f.1 = k) := fun hc => h hc.symm
      simp [insertField, getAssoc, h, h']
  | g :: gs, k => by
    by_cases hle : strLe f.1 g.1 = true
    · rw [show insertField f (g :: gs) = f :: g :: gs from by
        rw [insertField, if_pos hle]]
      by_cases h : k = f.1
      · simp [getAssoc, h]
      · have h' : ¬(f.1 = k) := fun hc => h hc.symm
        simp [getAssoc, h, h']
    · rw [show insertField f (g :: gs) = g :: insertField f gs from by
        rw [insertField, if_neg hle]]
      by_cases hg : g.1 = k
      · have hk : ¬(k = f.1) := by
          intro hc
          apply hle
          rw [← hc, hg]
          exact strLe_refl k
        simp [getAssoc, hg, hk]
      · simp only [getAssoc, if_neg hg]
        exact getAssoc_insertField f gs k

theorem getAssoc_sortFields : ∀ (l : List (String × Json)) (k : String),
    getAssoc (sortFields l) k = getAssoc l k
  | [], k => rfl
  | f :: fs, k => by
    rw [show sortFields (f :: fs) = insertField f (sortFields fs) from rfl,
      getAssoc_insertField, getAssoc_sortFields fs k]
    by_cases h : k = f.1
    · simp [getAssoc, h]
    · have h' : ¬(f.1 = k) := fun hc => h hc.symm
      simp [getAssoc, h, h']

theorem lastAssoc_goNormalizeFields : ∀ (fields : List (String × Json)) (k : String),
    lastAssoc (goNormalizeFields fields) k = (lastAssoc fields k).map goNormalize
  | [], k => rfl
  | (k1, v1) :: fs, k => by
    rw [show goNormalizeFields ((k1, v1) :: fs) = (k1, goNormalize v1) ::
      goNormalizeFields fs from rfl]
    rw [lastAssoc, lastAssoc, lastAssoc_goNormalizeFields fs k]
    cases lastAssoc fs k with
    | some w => rfl
    | none =>
      by_cases h : k1 = k <;> simp [h]

theorem getAssoc_goNormalize (fields : List (String × Json)) (k : String) :
    getAssoc (sortFields (dedupFields (goNormalizeFields fields))) k =
      (lastAssoc fields k).map goNormalize := by
  rw [getAssoc_sortFields, getAssoc_dedupFields, lastAssoc_goNormalizeFields]

/-- Field lookup along a path of object keys, on a document whose objects
have unique keys (the normalized view): the value stored at that path, if
any. -/
def getPath : Json → List String → Option Json
  | v, [] => some v
  | Json.obj fields, k :: p =>
    match getAssoc fields k with
    | some w => getPath w p
    | none => none
  | _, _ :: _ => none

/-- Field lookup along a path on a raw parsed document, with Go's
repeated-key semantics (the last occurrence of a key wins, as
json.Unmarshal leaves it in a map). -/
def getPathRaw : Json → List String → Option Json
  | v, [] => some v
  | Json.obj fields, k :: p =>
    match lastAssoc fields k with
    | some w => getPathRaw w p
    | none => none
  | _, _ :: _ => none

/-- The generic map view normalizes the document but changes no data:
looking a path up in the goNormalize image finds exactly the (normalized)
value the raw document holds at that path. -/
theorem getPath_goNormalize : ∀ (p : List String) (v : Json),
    getPath (goNormalize v) p = (getPathRaw v p).map goNormalize
  | [], v => by simp [getPath, getPathRaw]
  | k :: p, v => by
    cases v with
    | null => rfl
    | bool b => rfl
    | num s => rfl
    | str s => rfl
    | arr xs => rfl
    | obj fields =>
      show getPath (Json.obj (sortFields (dedupFields (goNormalizeFields fields)))) (k :: p) = _
      simp only [getPath, getPathRaw, getAssoc_goNormalize]
      cases lastAssoc fields k with
      | none => rfl
      | some w => exact getPath_goNormalize p w

/-- The path of the entry RemoveServer is asked to delete. -/
def deletedPath (server : MCPServer) : List String :=
  if server.scope = Scope.global then [(r"mcpServers"), server.name]
  else [(r"projects"), server.projectPath, (r"mcpServers"), server.name]

theorem getPath_setAssoc_eq (fields : List (String × Json)) (key : String) (v : Json)
    (p : List String) :
    getPath (Json.obj (setAssoc fields key v)) (key :: p) = getPath v p := by
  simp [getPath, getAssoc_setAssoc]

theorem getPath_setAssoc_ne (fields : List (String × Json)) (key : String) (v : Json)
    (k : String) (p : List String) (h : ¬(k = key)) :
    getPath (Json.obj (setAssoc fields key v)) (k :: p) = getPath (Json.obj fields) (k :: p) := by
  simp only [getPath, getAssoc_setAssoc, if_neg h]

/-- Frame property of the in-memory removal: any path that neither
extends the deleted entry's path nor is an ancestor of it looks up the
same value after removal as before. -/
theorem removeFromFields_frame (nf : List (String × Json)) (server : MCPServer)
    (p : List String) (h1 : ¬(deletedPath server <+: p))
    (h2 : ¬(p <+: deletedPath server)) :
    getPath (Json.obj (removeFromFields nf server)) p = getPath (Json.obj nf) p := by
  cases p with
  | nil => exact absurd List.nil_prefix h2
  | cons k p1 =>
    rw [removeFromFields]
    by_cases hscope : server.scope = Scope.global
    · rw [if_pos hscope]
      rw [deletedPath, if_pos hscope] at h1 h2
      cases hms : getAssoc nf (r"mcpServers") with
      | none => rfl
      | some v =>
        cases v with
        | obj ms =>
          by_cases hk : k = (r"mcpServers")
          · subst hk
            rw [getPath_setAssoc_eq]
            rw [show getPath (Json.obj nf) ((r"mcpServers") :: p1) =
              getPath (Json.obj ms) p1 from by simp only [getPath, hms]]
            cases p1 with
            | nil => exact absurd ⟨[server.name], rfl⟩ h2
            | cons k2 p2 =>
              by_cases hk2 : k2 = server.name
              · subst hk2
                exact absurd ⟨p2, rfl⟩ h1
              · simp only [getPath, getAssoc_delAssoc, if_neg hk2]
          · rw [getPath_setAssoc_ne _ _ _ _ _ hk]
        | null => rfl
        | bool b => rfl
        | num s => rfl
        | str s => rfl
        | arr xs => rfl
    · rw [if_neg hscope]
      rw [deletedPath, if_neg hscope] at h1 h2
      cases hpr : getAssoc nf (r"projects") with
      | none => rfl
      | some v =>
        cases v with
        | obj projs =>
          dsimp only
          cases hpp : getAssoc projs server.projectPath with
          | none => rfl
          | some w =>
            cases w with
            | obj proj =>
              dsimp only
              cases hms : getAssoc proj (r"mcpServers") with
              | none => rfl
              | some u =>
                cases u with
                | obj ms =>
                  dsimp only
                  by_cases hk : k = (r"projects")
                  · subst hk
                    rw [getPath_setAssoc_eq]
                    rw [show getPath (Json.obj nf) ((r"projects") :: p1) =
                      getPath (Json.obj projs) p1 from by simp only [getPath, hpr]]
                    cases p1 with
                    | nil =>
                      exact absurd ⟨[server.projectPath, (r"mcpServers"), server.name],
                        rfl⟩ h2
                    | cons k2 p2 =>
                      by_cases hk2 : k2 = server.projectPath
                      · subst hk2
                        rw [getPath_setAssoc_eq]
                        rw [show getPath (Json.obj projs) (server.projectPath :: p2) =
                          getPath (Json.obj proj) p2 from by simp only [getPath, hpp]]
                        cases p2 with
                        | nil => exact absurd ⟨[(r"mcpServers"), server.name], rfl⟩ h2
                        | cons k3 p3 =>
                          by_cases hk3 : k3 = (r"mcpServers")
                          · subst hk3
                            rw [getPath_setAssoc_eq]
                            rw [show getPath (Json.obj proj) ((r"mcpServers") :: p3) =
                              getPath (Json.obj ms) p3 from by simp only [getPath, hms]]
                            cases p3 with
                            | nil => exact absurd ⟨[server.name], rfl⟩ h2
                            | cons k4 p4 =>
                              by_cases hk4 : k4 = server.name
                              · subst hk4
                                exact absurd ⟨p4, rfl⟩ h1
                              · simp only [getPath, getAssoc_delAssoc, if_neg hk4]
                          · rw [getPath_setAssoc_ne _ _ _ _ _ hk3]
                      · rw [getPath_setAssoc_ne _ _ _ _ _ hk2]
                  · rw [getPath_setAssoc_ne _ _ _ _ _ hk]
                | null => rfl
                | bool b => rfl
                | num s => rfl
                | str s => rfl
                | arr xs => rfl
            | null => rfl
            | bool b => rfl
            | num s => rfl
            | str s => rfl
            | arr xs => rfl
        | null => rfl
        | bool b => rfl
        | num s => rfl
        | str s => rfl
        | arr xs => rfl

/-- After removal, the deleted entry's path resolves to nothing (it
already resolved to nothing whenever any link along it was missing or of
the wrong shape, since removal is then a no-op). -/
theorem removeFromFields_deleted (nf : List (String × Json)) (server : MCPServer) :
    getPath (Json.obj (removeFromFields nf server)) (deletedPath server) = none := by
  rw [removeFromFields]
  by_cases hscope : server.scope = Scope.global
  · rw [if_pos hscope, deletedPath, if_pos hscope]
    cases hms : getAssoc nf (r"mcpServers") with
    | none => simp only [getPath, hms]
    | some v =>
      cases v with
      | obj ms =>
        rw [getPath_setAssoc_eq]
        simp [getPath, getAssoc_delAssoc]
      | null => simp only [getPath, hms]
      | bool b => simp only [getPath, hms]
      | num s => simp only [getPath, hms]
      | str s => simp only [getPath, hms]
      | arr xs => simp only [getPath, hms]
  · rw [if_neg hscope, deletedPath, if_neg hscope]
    cases hpr : getAssoc nf (r"projects") with
    | none => simp only [getPath, hpr]
    | some v =>
      cases v with
      | obj projs =>
        dsimp only
        cases hpp : getAssoc projs server.projectPath with
        | none => simp only [getPath, hpr, hpp]
        | some w =>
          cases w with
          | obj proj =>
            dsimp only
            cases hms : getAssoc proj (r"mcpServers") with
            | none => simp only [getPath, hpr, hpp, hms]
            | some u =>
              cases u with
              | obj ms =>
                dsimp only
                rw [getPath_setAssoc_eq, getPath_setAssoc_eq, getPath_setAssoc_eq]
                simp [getPath, getAssoc_delAssoc]
              | null => simp only [getPath, hpr, hpp, hms]
              | bool b => simp only [getPath, hpr, hpp, hms]
              | num s => simp only [getPath, hpr, hpp, hms]
              | str s => simp only [getPath, hpr, hpp, hms]
              | arr xs => simp only [getPath, hpr, hpp, hms]
          | null => simp only [getPath, hpr, hpp]
          | bool b => simp only [getPath, hpr, hpp]
          | num s => simp only [getPath, hpr, hpp]
          | str s => simp only [getPath, hpr, hpp]
          | arr xs => simp only [getPath, hpr, hpp]
      | null => simp only [getPath, hpr]
      | bool b => simp only [getPath, hpr]
      | num s => simp only [getPath, hpr]
      | str s => simp only [getPath, hpr]
      | arr xs => simp only [getPath, hpr]

/-- Whether the target of a removal is absent from the (normalized)
document: the key itself, the project path, or the mcpServers mapping is
missing (or not an object, in which case the code's type assertion fails
the same way). -/
def targetAbsent (fields : List (String × Json)) (server : MCPServer) : Bool :=
  if server.scope = Scope.global then
    match getAssoc fields (r"mcpServers") with
    | some (Json.obj ms) => (getAssoc ms server.name).isNone
    | _ => true
  else
    match getAssoc fields (r"projects") with
    | some (Json.obj projs) =>
      match getAssoc projs server.projectPath with
      | some (Json.obj proj) =>
        match getAssoc proj (r"mcpServers") with
        | some (Json.obj ms) => (getAssoc ms server.name).isNone
        | _ => true
      | _ => true
    | _ => true

/-- When the target is absent the in-memory removal changes nothing at
all: the document tree is returned as it was. -/
theorem removeFromFields_absent (nf : List (String × Json)) (server : MCPServer)
    (h : targetAbsent nf server = true) :
    removeFromFields nf server = nf := by
  rw [removeFromFields]
  rw [targetAbsent] at h
  by_cases hscope : server.scope = Scope.global
  · rw [if_pos hscope]
    rw [if_pos hscope] at h
    cases hms : getAssoc nf (r"mcpServers") with
    | none => rfl
    | some v =>
      cases v with
      | obj ms =>
        try dsimp only
        rw [hms] at h
        try dsimp only at h
        have hn : getAssoc ms server.name = none := by
          cases hg : getAssoc ms server.name with
          | none => rfl
          | some w => rw [hg] at h; cases h
        rw [delAssoc_of_none ms server.name hn]
        exact setAssoc_self nf (r"mcpServers") (Json.obj ms) hms
      | null => rfl
      | bool b => rfl
      | num s => rfl
      | str s => rfl
      | arr xs => rfl
  · rw [if_neg hscope]
    rw [if_neg hscope] at h
    cases hpr : getAssoc nf (r"projects") with
    | none => rfl
    | some v =>
      cases v with
      | obj projs =>
        dsimp only
        rw [hpr] at h
        try dsimp only at h
        cases hpp : getAssoc projs server.projectPath with
        | none => rfl
        | some w =>
          cases w with
          | obj proj =>
            dsimp only
            rw [hpp] at h
            try dsimp only at h
            cases hms : getAssoc proj (r"mcpServers") with
            | none => rfl
            | some u =>
              cases u with
              | obj ms =>
                dsimp only
                rw [hms] at h
                try dsimp only at h
                have hn : getAssoc ms server.name = none := by
                  cases hg : getAssoc ms server.name with
                  | none => rfl
                  | some x => rw [hg] at h; cases h
                rw [delAssoc_of_none ms server.name hn]
                rw [setAssoc_self proj (r"mcpServers") (Json.obj ms) hms]
                rw [setAssoc_self projs server.projectPath (Json.obj proj) hpp]
                exact setAssoc_self nf (r"projects") (Json.obj projs) hpr
              | null => rfl
              | bool b => rfl
              | num s => rfl
              | str s => rfl
              | arr xs => rfl
          | null => rfl
          | bool b => rfl
          | num s => rfl
          | str s => rfl
          | arr xs => rfl
      | null => rfl
      | bool b => rfl
      | num s => rfl
      | str s => rfl
      | arr xs => rfl

/-! ## Claims C1 and C9: RemoveServer on the document -/

/-- Top-level keys of a document, in serialized order. -/
def topKeys : Json → List String
  | Json.obj fields => fields.map Prod.fst
  | _ => []

/-- C1 (amended): RemoveServer re-parses generically and the written
result preserves every field and value of every part of the document
other than the deleted entry (lookup along any path disjoint from the
deleted entry's path is unchanged, values taken up to generic-map
normalization), and the deleted entry's path resolves to nothing; sibling
key ordering is however not preserved (see the counterexample) because
the generic view is a Go map whose keys re-serialize in sorted order. -/
theorem claim_C1 (content : String) (server : MCPServer) (fields : List (String × Json))
    (hp : jsonParse content = some (Json.obj fields)) :
    removeServer content server =
      Except.ok (marshalIndent (removeServerDoc (goNormalize (Json.obj fields)) server)) ∧
    (∀ p, ¬(deletedPath server <+: p) → ¬(p <+: deletedPath server) →
      getPath (removeServerDoc (goNormalize (Json.obj fields)) server) p =
        (getPathRaw (Json.obj fields) p).map goNormalize) ∧
    getPath (removeServerDoc (goNormalize (Json.obj fields)) server)
      (deletedPath server) = none := by
  refine ⟨by simp only [removeServer, hp], ?_, ?_⟩
  · intro p hp1 hp2
    rw [show removeServerDoc (goNormalize (Json.obj fields)) server =
      Json.obj (removeFromFields (sortFields (dedupFields (goNormalizeFields fields)))
        server) from rfl]
    rw [removeFromFields_frame _ _ _ hp1 hp2]
    exact getPath_goNormalize p (Json.obj fields)
  · exact removeFromFields_deleted _ _

/-- The document of the C1 counterexample: its top-level sibling keys are
deliberately not in sorted order. -/
def c1doc : String :=
  "\x7b\"zebra\":\"z\",\"mcpServers\":\x7b\"a\":\x7b\"type\":\"http\"\x7d\x7d\x7d"

/-- Its parsed field list. -/
def c1fields : List (String × Json) :=
  [((r"zebra"), Json.str (r"z")),
    ((r"mcpServers"), Json.obj [((r"a"), Json.obj [((r"type"), Json.str (r"http"))])])]

/-- The global server the C1 counterexample removes. -/
def c1server : MCPServer :=
  { name := (r"a"), srvType := ServerType.http, typeStr := (r"http"),
    command := (r""), args := [], env := [], url := (r""), headers := [],
    scope := Scope.global, projectPath := (r"") }

/-- C1 as stated is false: the input document lists its untouched
top-level sibling keys as zebra, mcpServers, but the document RemoveServer
writes back lists them as mcpServers, zebra - the ordering of sibling
keys is not preserved. -/
theorem claim_C1_counterexample :
    (jsonParse c1doc).map topKeys = some [(r"zebra"), (r"mcpServers")] ∧
    (removeServer c1doc c1server).map (fun out => (jsonParse out).map topKeys) =
      Except.ok (some [(r"mcpServers"), (r"zebra")]) :=
  ⟨rfl, rfl⟩

theorem claim_C1_witness :
    removeServer c1doc c1server =
      Except.ok (marshalIndent (removeServerDoc (goNormalize (Json.obj c1fields))
        c1server)) ∧
    getPath (removeServerDoc (goNormalize (Json.obj c1fields)) c1server)
      [(r"zebra")] =
      (getPathRaw (Json.obj c1fields) [(r"zebra")]).map goNormalize ∧
    getPath (removeServerDoc (goNormalize (Json.obj c1fields)) c1server)
      (deletedPath c1server) = none :=
  ⟨(claim_C1 c1doc c1server c1fields (by decide)).1,
    (claim_C1 c1doc c1server c1fields (by decide)).2.1 [(r"zebra")]
      (by decide) (by decide),
    (claim_C1 c1doc c1server c1fields (by decide)).2.2⟩

/-- C9: when the target key, the project path, or the mcpServers mapping
is absent (or not an object, so the code's type assertion fails the same
silent way), RemoveServer returns ok, writes the plain re-serialization
of the unchanged document, the removal transformation is the identity on
the document tree, and every path still looks up the same (normalized)
value as in the original document - the re-serialized form differs in
formatting and key order only, not in structure or data. -/
theorem claim_C9 (content : String) (server : MCPServer) (fields : List (String × Json))
    (hp : jsonParse content = some (Json.obj fields))
    (ha : targetAbsent (sortFields (dedupFields (goNormalizeFields fields))) server
      = true) :
    removeServer content server =
      Except.ok (marshalIndent (goNormalize (Json.obj fields))) ∧
    removeServerDoc (goNormalize (Json.obj fields)) server =
      goNormalize (Json.obj fields) ∧
    (∀ p, getPath (goNormalize (Json.obj fields)) p =
      (getPathRaw (Json.obj fields) p).map goNormalize) := by
  have hdoc : removeServerDoc (goNormalize (Json.obj fields)) server =
      goNormalize (Json.obj fields) := by
    rw [show removeServerDoc (goNormalize (Json.obj fields)) server =
      Json.obj (removeFromFields (sortFields (dedupFields (goNormalizeFields fields)))
        server) from rfl]
    rw [removeFromFields_absent _ _ ha]
    rfl
  refine ⟨?_, hdoc, fun p => getPath_goNormalize p _⟩
  simp only [removeServer, hp]
  rw [hdoc]

/-- The document of the C9 witness (one global server, named a). -/
def c9doc : String := "\x7b\"mcpServers\":\x7b\"a\":\x7b\x7d\x7d\x7d"

/-- Its parsed field list. -/
def c9fields : List (String × Json) :=
  [((r"mcpServers"), Json.obj [((r"a"), Json.obj [])])]

/-- A global server name that is absent from c9doc. -/
def c9server : MCPServer :=
  { name := (r"b"), srvType := ServerType.stdio, typeStr := (r""),
    command := (r""), args := [], env := [], url := (r""), headers := [],
    scope := Scope.global, projectPath := (r"") }

theorem claim_C9_witness :
    removeServer c9doc c9server =
      Except.ok (marshalIndent (goNormalize (Json.obj c9fields))) ∧
    removeServerDoc (goNormalize (Json.obj c9fields)) c9server =
      goNormalize (Json.obj c9fields) :=
  ⟨(claim_C9 c9doc c9server c9fields (by decide) (by decide)).1,
    (claim_C9 c9doc c9server c9fields (by decide) (by decide)).2.1⟩

/-! ## Claim C2: RemoveServers batch discipline -/

theorem backupName_ne (path ts : String) : backupName path ts ≠ path := by
  intro h
  have h2 : (backupName path ts).length = path.length + 8 + ts.length := by
    rw [backupName, String.length_append, String.length_append]
    rfl
  rw [h] at h2
  omega

/-- C2: on an empty descriptor list RemoveServers performs no backup and
no write and returns ok with the file system untouched; on a non-empty
list it fails the whole operation with the file system (hence the config
file) unchanged when the backup read fails; and on success it creates
exactly one backup holding the original content, applies every removal
to the one in-memory parse, performs exactly one write of the marshalled
result to the config path, and touches no other file. -/
theorem claim_C2 (fs : FS) (path : String) (servers : List MCPServer) (ts : String) :
    (servers = [] → removeServers fs path servers ts = (fs, none)) ∧
    (servers ≠ [] → getAssoc fs path = none →
      removeServers fs path servers ts =
        (fs, some (r"failed to read config for backup"))) ∧
    (∀ content fields, servers ≠ [] → getAssoc fs path = some content →
      jsonParse content = some (Json.obj fields) →
      removeServers fs path servers ts =
        (setAssoc (setAssoc fs (backupName path ts) content) path
          (marshalIndent (servers.foldl (fun acc s => removeServerDoc acc s)
            (goNormalize (Json.obj fields)))), none) ∧
      getAssoc (removeServers fs path servers ts).1 (backupName path ts) =
        some content ∧
      (∀ q, q ≠ path → q ≠ backupName path ts →
        getAssoc (removeServers fs path servers ts).1 q = getAssoc fs q)) := by
  refine ⟨?_, ?_, ?_⟩
  · intro h
    subst h
    rfl
  · intro hne hget
    have hemp : servers.isEmpty = false := by
      cases servers with
      | nil => exact absurd rfl hne
      | cons s ss => rfl
    simp only [removeServers, hemp, Bool.false_eq_true, if_false, backup, hget]
  · intro content fields hne hget hjson
    have hemp : servers.isEmpty = false := by
      cases servers with
      | nil => exact absurd rfl hne
      | cons s ss => rfl
    have hread : getAssoc (setAssoc fs (backupName path ts) content) path =
        some content := by
      rw [getAssoc_setAssoc, if_neg (fun hc => backupName_ne path ts hc.symm)]
      exact hget
    have hmain : removeServers fs path servers ts =
        (setAssoc (setAssoc fs (backupName path ts) content) path
          (marshalIndent (servers.foldl (fun acc s => removeServerDoc acc s)
            (goNormalize (Json.obj fields)))), none) := by
      simp only [removeServers, hemp, Bool.false_eq_true, if_false, backup, hget,
        hread, hjson]
    refine ⟨hmain, ?_, ?_⟩
    · rw [hmain]
      show getAssoc (setAssoc _ path _) (backupName path ts) = some content
      rw [getAssoc_setAssoc, if_neg (backupName_ne path ts),
        getAssoc_setAssoc, if_pos rfl]
    · intro q hq1 hq2
      rw [hmain]
      show getAssoc (setAssoc _ path _) q = getAssoc fs q
      rw [getAssoc_setAssoc, if_neg hq1, getAssoc_setAssoc, if_neg hq2]

/-- File system of the C2 witness: just the config file. -/
def c2fs : FS := [((r"cfg"), c9doc)]

/-- Timestamp of the C2 witness backup. -/
def c2ts : String := (r"20250101-000000")

theorem claim_C2_witness :
    removeServers c2fs (r"cfg") [c1server] c2ts =
      (setAssoc (setAssoc c2fs (backupName (r"cfg") c2ts) c9doc) (r"cfg")
        (marshalIndent ([c1server].foldl (fun acc s => removeServerDoc acc s)
          (goNormalize (Json.obj c9fields)))), none) ∧
    getAssoc (removeServers c2fs (r"cfg") [c1server] c2ts).1
      (backupName (r"cfg") c2ts) = some c9doc :=
  ⟨((claim_C2 c2fs (r"cfg") [c1server] c2ts).2.2 c9doc c9fields (by decide)
      (by decide) (by decide)).1,
    ((claim_C2 c2fs (r"cfg") [c1server] c2ts).2.2 c9doc c9fields (by decide)
      (by decide) (by decide)).2.1⟩
